import Mathlib

/-!
Verification of the geometric algorithm core of an ArcGIS-Pro geometry library
(`script/Geometry.py`) against its natural-language specification.

The shallow embedding below models coordinates as exact rationals (`ℚ`).  The
reference implementation works with IEEE floats; every property checked here
depends only on the ordering, equality and field structure of the computed
quantities, which the rational model shares.  Euclidean lengths are represented
by their squares (`segLen2`): equality and order of nonnegative lengths agree
with equality and order of their squares, so rankings, bucketings by equal
length, and symmetry statements are unchanged.  External geometry primitives
(`arcpy`) that the code calls are modelled as explicit parameters or clamps, as
noted at each definition.
-/

namespace ArcGeo

/-- A 2-D point with exact rational coordinates. -/
abbrev Pt := ℚ × ℚ

/-- Squared Euclidean distance between two points.  Stands in for the float
`Shape_Length` of the two-point polyline the code builds between a pair of
centroids: order and equality of nonnegative lengths coincide with order and
equality of their squares. -/
def segLen2 (p q : Pt) : ℚ := (p.1 - q.1) ^ 2 + (p.2 - q.2) ^ 2

/-- An ordered pair of object ids, modelling the `"(oid1, oid2)"` combination
strings of `distance_lines`.  The string encoding is injective on integer id
pairs (`str` of an int contains no `", "`), and the string parsing at lines
583/607 recovers exactly the two components, so pairs are a faithful model of
the combination keys. -/
abbrev Comb := Nat × Nat

/-- The inverse combination `comb_inv` = `"(oid2, oid1)"`. -/
def combSwap (c : Comb) : Comb := (c.2, c.1)

/-- Python `list.index`: position of the first occurrence (total function;
returns the length when the element is absent — all uses below are on present
elements). -/
def listIndex {α : Type} [DecidableEq α] (a : α) : List α → Nat
  | [] => 0
  | b :: l => if b = a then 0 else listIndex a l + 1

/-- One step of the `check_dict` / `delete_dict` bookkeeping of
`distance_lines` (lines 530-536).  State is the pair (keys of `check_dict`,
keys of `delete_dict`), in insertion order.  When a combination has not been
seen and is not its own inverse, it is recorded together with its inverse in
`check_dict`; otherwise it is marked for deletion. -/
def delete_step (acc : List Comb × List Comb) (c : Comb) : List Comb × List Comb :=
  if c ∉ acc.1 ∧ c.1 ≠ c.2 then (acc.1 ++ [c, combSwap c], acc.2)
  else (acc.1, acc.2 ++ [c])

/-- Keys of `check_dict` after processing all combinations in row-major
order. -/
def check_list (l : List Comb) : List Comb := (l.foldl delete_step ([], [])).1

/-- Keys of `delete_dict` after processing all combinations in row-major
order: the rows deleted in the self-join case. -/
def delete_list (l : List Comb) : List Comb := (l.foldl delete_step ([], [])).2

/-- All (combination, segment length) rows of `distance_lines`, in row-major
order (outer loop over the first feature class, inner loop over the second;
lines 477-536).  `near` abstracts the external snap step for the second
feature class (lines 479-487): for a point second class it is
`fun _ q => q`; for polylines/polygons it stands for the black-box
`snapToLine` (after `boundary` for polygons).  The segment runs from the
first feature's centroid to the derived near point. -/
def combsWithLen {β : Type} (near : Pt → β → Pt) (aRows : List (Nat × Pt))
    (bRows : List (Nat × β)) : List (Comb × ℚ) :=
  aRows.flatMap fun p => bRows.map fun q => ((p.1, q.1), segLen2 p.2 (near p.2 q.2))

/-- The length-bucket concatenation of lines 576-620: rows are grouped into a
dictionary keyed by their (float) length, and the groups are concatenated in
ascending key order, each group keeping insertion (row-major) order.
`List.dedup` only has to produce the set of distinct keys — the keys are
sorted afterwards, so which duplicate survives is irrelevant. -/
def bucketed (rows : List (Comb × ℚ)) : List (Comb × ℚ) :=
  (((rows.map Prod.snd).dedup).insertionSort (· ≤ ·)).flatMap
    fun L => rows.filter fun r => r.2 = L

/-- `fc_out_dict[oid1]`: the combinations whose first id is `a`, in ascending
length order (ties in first-occurrence order), as a list of combination keys
(lines 576-596). -/
def fc_out_list (rows : List (Comb × ℚ)) (a : ℕ) : List Comb :=
  (bucketed (rows.filter fun r => r.1.1 = a)).map Prod.fst

/-- `other_fc_out_dict[oid2]`: the combinations whose second id is `b`, in
ascending length order (ties in first-occurrence order) (lines 600-620). -/
def other_out_list (rows : List (Comb × ℚ)) (b : ℕ) : List Comb :=
  (bucketed (rows.filter fun r => r.1.2 = b)).map Prod.fst

/-- The final rows written by `distance_lines` (lines 627-653): each surviving
row's combination together with its `OID1_index` and `OID2_index` values.  In
the self-join case (`selfJoin = true`, i.e. `self.feature == other_fc`) rows
marked in `delete_dict` are deleted and both indices are decremented by one;
otherwise all rows survive and the raw `list.index` ranks are written. -/
def distance_lines {β : Type} (near : Pt → β → Pt) (aRows : List (Nat × Pt))
    (bRows : List (Nat × β)) (selfJoin : Bool) : List (Comb × ℤ × ℤ) :=
  let cwl := combsWithLen near aRows bRows
  let del := delete_list (cwl.map Prod.fst)
  let kept := if selfJoin then cwl.filter (fun r => r.1 ∉ del) else cwl
  kept.map fun r =>
    (r.1,
      (listIndex r.1 (fc_out_list cwl r.1.1) : ℤ) - (if selfJoin then 1 else 0),
      (listIndex r.1 (other_out_list cwl r.1.2) : ℤ) - (if selfJoin then 1 else 0))

/-- The `near` function for a point-type second feature class: the pair is
joined centroid-to-centroid (line 479-480: no snapping happens). -/
def nearPoint : Pt → Pt → Pt := fun _ q => q

/-- `distance_lines` with the same point collection on both sides (the
self-join configuration `A = B`). -/
def dl_points (pts : List (Nat × Pt)) : List (Comb × ℤ × ℤ) :=
  distance_lines nearPoint pts pts true

/-- Spec-side (squared) segment length of an output row of the point/point
self-join: the Euclidean distance between the two features named by the row's
combination, recovered from the collection by id lookup. -/
def combLen2 (pts : List (Nat × Pt)) (c : Comb) : ℚ :=
  segLen2 ((pts.lookup c.1).getD (0, 0)) ((pts.lookup c.2).getD (0, 0))

/-- 3×3 determinant by cofactor expansion along the first row, the exact
value `np.linalg.det` computes for the row-listed matrices of
`circle_from_three_points` (squares `x ** 2` are written `x * x` throughout
this embedding). -/
def det3 (a b c d e f g h i : ℚ) : ℚ :=
  a * (e * i - f * h) - b * (d * i - f * g) + c * (d * h - e * g)

/-- `det_a` of lines 262-263: determinant of `[[x, y, 1]]` over the triple. -/
def det_a (p1 p2 p3 : Pt) : ℚ := det3 p1.1 p1.2 1 p2.1 p2.2 1 p3.1 p3.2 1

/-- Cramer solution for the center abscissa (lines 267-268). -/
def circle_x (p1 p2 p3 : Pt) : ℚ :=
  det3 ((p1.1 * p1.1 + p1.2 * p1.2) / 2) p1.2 1
       ((p2.1 * p2.1 + p2.2 * p2.2) / 2) p2.2 1
       ((p3.1 * p3.1 + p3.2 * p3.2) / 2) p3.2 1 / det_a p1 p2 p3

/-- Cramer solution for the center ordinate (lines 270-271). -/
def circle_y (p1 p2 p3 : Pt) : ℚ :=
  det3 p1.1 ((p1.1 * p1.1 + p1.2 * p1.2) / 2) 1
       p2.1 ((p2.1 * p2.1 + p2.2 * p2.2) / 2) 1
       p3.1 ((p3.1 * p3.1 + p3.2 * p3.2) / 2) 1 / det_a p1 p2 p3

/-- The consecutive non-overlapping triples of line 257
(`zip(first_points[0::3], first_points[1::3], first_points[2::3])`; like
`zip`, leftovers when the length is not a multiple of three are dropped —
the length precondition of line 246 rules that out). -/
def triples {α : Type} : List α → List (α × α × α)
  | p1 :: p2 :: p3 :: rest => (p1, p2, p3) :: triples rest
  | _ => []

/-- The main loop of `circle_from_three_points` (lines 259-288): the centers
and radii of the circles, in triple order.  `cnt` is `points_counter`, which
the code increments only when a triple yields a circle (line 283), and the
radius is the distance from `self.shape[points_counter * 3]` to the center
(line 279) — recorded here in squared form.  A triple with zero determinant
only reports a non-fatal error and is skipped. -/
def circleLoop (allPts : List Pt) : List (Pt × Pt × Pt) → Nat → List (Pt × ℚ)
  | [], _ => []
  | (p1, p2, p3) :: ts, cnt =>
    if det_a p1 p2 p3 ≠ 0 then
      ((circle_x p1 p2 p3, circle_y p1 p2 p3),
        segLen2 (allPts.getD (cnt * 3) (0, 0))
          (circle_x p1 p2 p3, circle_y p1 p2 p3)) :: circleLoop allPts ts (cnt + 1)
    else circleLoop allPts ts cnt

/-- `circle_from_three_points` on the list of first points: the produced
(center, squared radius) pairs. -/
def circle_from_three_points (pts : List Pt) : List (Pt × ℚ) :=
  circleLoop pts (triples pts) 0

/-- Interface to the `arcpy` geometry primitives used by `inner_circle`'s
local function `converge_to_the_center` (lines 663-693), over an abstract
polygon state type `P`.  `minDistCentroid` bundles lines 676-680 (boundary,
centroid, the centroid point geometry and its distance to the boundary);
`buffer` is line 689.  A `none` result models the primitive raising an
exception, which line 691 catches.  `pointCount` is the `.pointCount`
attribute read at line 684. -/
structure GeomEngine (P : Type) where
  minDistCentroid : P → Option (Pt × ℚ)
  buffer : P → ℚ → Option P
  pointCount : P → Nat

/-- The `while True` loop of `converge_to_the_center` (lines 674-693), with a
fuel bound (the source loop is unbounded; `none` = fuel exhausted, a model
artifact that no theorem below identifies with source behaviour).  `shape` is
the enclosing `for shape in shapes` loop variable that the closure reads at
line 684: the degeneracy test is `shape.pointCount is 2` on the ORIGINAL
piece, not on the currently shrunk `polygon` (CPython interns small ints, so
`is 2` acts as `== 2`).  `dist` accumulates `min_dist` before the stop test
(line 682).  Returns `some (some (c, d))` when line 685-687 records the
centroid and total, and `some none` when the `except` branch at line 691
breaks out: the loop then records NOTHING for this piece. -/
def converge_to_the_center {P : Type} (e : GeomEngine P) (accuracy : ℚ)
    (shape : P) : Nat → P → ℚ → Option (Option (Pt × ℚ))
  | 0, _, _ => none
  | fuel + 1, polygon, dist =>
    match e.minDistCentroid polygon with
    | none => some none
    | some (c, minDist) =>
      if minDist ≤ accuracy ∨ e.pointCount shape = 2 then
        some (some (c, dist + minDist))
      else
        match e.buffer polygon (-minDist) with
        | none => some none
        | some p2 => converge_to_the_center e accuracy shape fuel p2 (dist + minDist)

/-- Spec-side variant of the loop, transcribing the claim's words: the
degeneracy test reads the point count of the CURRENTLY iterated (shrunk)
polygon, and an exception truncates convergence at the current accumulated
estimate, recording the current centroid and total. -/
def converge_spec {P : Type} (e : GeomEngine P) (accuracy : ℚ) :
    Nat → P → ℚ → Pt → ℚ → Option (Option (Pt × ℚ))
  | 0, _, _, _, _ => none
  | fuel + 1, polygon, dist, lastC, lastD =>
    match e.minDistCentroid polygon with
    | none => some (some (lastC, lastD))
    | some (c, minDist) =>
      if minDist ≤ accuracy ∨ e.pointCount polygon = 2 then
        some (some (c, dist + minDist))
      else
        match e.buffer polygon (-minDist) with
        | none => some (some (c, dist + minDist))
        | some p2 => converge_spec e accuracy fuel p2 (dist + minDist) c (dist + minDist)

/-- The piece loop of `inner_circle` (lines 700-704): each singlepart piece
is converged starting from itself with `dist = 0`, and the recorded centroids
and distance totals are appended to the shared lists.  A piece whose
convergence breaks out of the `except` branch contributes nothing (the fuel
artifact `none` is treated likewise; theorems below hypothesise it away). -/
def inner_circle_centroids {P : Type} (e : GeomEngine P) (accuracy : ℚ)
    (fuel : Nat) (pieces : List P) : List Pt × List ℚ :=
  pieces.foldl (fun acc shape =>
    match converge_to_the_center e accuracy shape fuel shape 0 with
    | some (some r) => (acc.1 ++ [r.1], acc.2 ++ [r.2])
    | _ => acc) ([], [])

/-- A three-state polygon engine separating the two point-count readings:
the original piece `0` has 3 points, its first shrink `1` has 2 points, the
second shrink `2` is within accuracy.  Centroid of state `s` is `(s, s)`. -/
def countEngine : GeomEngine Nat where
  minDistCentroid s := some (((s : ℚ), (s : ℚ)), if s = 2 then 0 else 10)
  buffer s _ := some (s + 1)
  pointCount s := if s = 1 then 2 else 3

/-- A polygon engine whose negative buffering always raises (models the
buffer collapsing the polygon), while distances stay above accuracy. -/
def bufferFailEngine : GeomEngine Nat where
  minDistCentroid s := some (((s : ℚ), (s : ℚ)), 10)
  buffer _ _ := none
  pointCount _ := 3

/-- A cursor row of `numerate` (line 765): `(SHAPE@X, SHAPE@Y, OID@)`.  The
object id is carried as a rational as well, since line 766's buggy key makes
the code compare object ids the way it compares coordinates. -/
abbrev Row := ℚ × ℚ × ℚ

/-- Python `row[i]` on a cursor row. -/
def getIdx (r : Row) (i : Nat) : ℚ :=
  if i = 0 then r.1 else if i = 1 then r.2.1 else r.2.2

/-- Python `sorted(l, key=key, reverse=rev)`: a stable sort by the key,
descending when `rev` (CPython's sort is stable and `reverse=True` preserves
the original relative order of equal keys; `List.insertionSort` with a total
relation has the same stable behaviour). -/
def sortedPy {α : Type} (key : α → ℚ) (rev : Bool) (l : List α) : List α :=
  if rev then l.insertionSort (fun a b => key b ≤ key a)
  else l.insertionSort (fun a b => key a ≤ key b)

/-- The two sort passes of `numerate` (lines 766-767), exactly as written:
the secondary pass keys on `row[xy_index + 1 % 2]` — which Python (and Lean)
parse as `row[xy_index + (1 % 2)] = row[xy_index + 1]` — then the stable
primary pass keys on `row[xy_index]`. -/
def numerate_sorted (xy_index : Nat) (reverse_1 reverse_2 : Bool)
    (l : List Row) : List Row :=
  sortedPy (fun row => getIdx row xy_index) reverse_1
    (sortedPy (fun row => getIdx row (xy_index + 1 % 2)) reverse_2 l)

/-- Spec-side transcription of the two passes: the secondary key is the
OTHER axis, `row[(xy_index + 1) % 2]`. -/
def numerate_sorted_spec (xy_index : Nat) (reverse_1 reverse_2 : Bool)
    (l : List Row) : List Row :=
  sortedPy (fun row => getIdx row xy_index) reverse_1
    (sortedPy (fun row => getIdx row ((xy_index + 1) % 2)) reverse_2 l)

/-- The numeration dictionary of line 768, as an association list
`oid ↦ position + 1` over the fully sorted rows. -/
def numerate (xy_index : Nat) (reverse_1 reverse_2 : Bool)
    (l : List Row) : List (ℚ × Nat) :=
  (numerate_sorted xy_index reverse_1 reverse_2 l).enum.map
    fun x => (x.2.2.2, x.1 + 1)

/-- Spec-side numeration built on `numerate_sorted_spec`. -/
def numerate_spec (xy_index : Nat) (reverse_1 reverse_2 : Bool)
    (l : List Row) : List (ℚ × Nat) :=
  (numerate_sorted_spec xy_index reverse_1 reverse_2 l).enum.map
    fun x => (x.2.2.2, x.1 + 1)

/-- Policy `top_left` of line 747: `[1, True, False]`. -/
def top_left : Nat × Bool × Bool := (1, true, false)

/-- Policy `top_right` of line 748: `[1, True, True]`. -/
def top_right : Nat × Bool × Bool := (1, true, true)

/-- Policy `bottom_left` of line 749: `[1, False, False]`. -/
def bottom_left : Nat × Bool × Bool := (1, false, false)

/-- Policy `bottom_right` of line 750: `[1, False, True]`. -/
def bottom_right : Nat × Bool × Bool := (1, false, true)

/-- Policy `right_top` of line 751: `[0, True, True]`. -/
def right_top : Nat × Bool × Bool := (0, true, true)

/-- Policy `right_bottom` of line 752: `[0, True, False]`. -/
def right_bottom : Nat × Bool × Bool := (0, true, false)

/-- Policy `left_top` of line 753: `[0, False, True]`. -/
def left_top : Nat × Bool × Bool := (0, false, true)

/-- Policy `left_bottom` of line 754: `[0, False, False]`. -/
def left_bottom : Nat × Bool × Bool := (0, false, false)

/-- `arcpy` `positionAlongLine(pos)` on a line of length `L`, reduced to the
arc-length coordinate of the returned point: positions beyond either end are
clamped to the ends. -/
def positionAlongLine (L pos : ℚ) : ℚ := min (max pos 0) L

/-- The per-shape sampling loop of `points_along_feature` (lines 848-855)
for a shape of total length `L` and step `distance`: `number_of_points` is
`int(L / distance)` (line 849), the loop runs `number_of_points + 1` times,
and `length += distance` happens BEFORE each sample (line 852), so the `i`-th
sample sits at arc length `distance * (i + 1)`, clamped by
`positionAlongLine`. -/
def points_along_shape (L distance : ℚ) : List ℚ :=
  (List.range (⌊L / distance⌋.toNat + 1)).map
    fun i : ℕ => positionAlongLine L (distance * ((i : ℚ) + 1))

/-- Spec-side transcription of the claim's sample positions: `floor(L/d) + 1`
samples at fixed increments starting at `0`. -/
def points_along_spec (L distance : ℚ) : List ℚ :=
  (List.range (⌊L / distance⌋.toNat + 1)).map fun i : ℕ => (i : ℚ) * distance

/-- `math.radians` (line 888). -/
noncomputable def radians (a : ℝ) : ℝ := a * Real.pi / 180

/-- `rotate_xy` (lines 864-894) over the reals: the coordinates are moved to
the origin (lines 883-884), the angle is negated for clockwise rotation and
converted to radians (lines 887-888), and the rotation matrix is applied and
the result moved back (lines 891-892). -/
noncomputable def rotate_xy (x y rotation_angle x_cnt y_cnt : ℝ) : ℝ × ℝ :=
  ((x - x_cnt) * Real.cos (radians (-1 * rotation_angle))
      - (y - y_cnt) * Real.sin (radians (-1 * rotation_angle)) + x_cnt,
   (x - x_cnt) * Real.sin (radians (-1 * rotation_angle))
      + (y - y_cnt) * Real.cos (radians (-1 * rotation_angle)) + y_cnt)

/-- Core of Python `str.replace` over character lists, with an explicit fuel
bound: at each position, if the pattern `p` starts here the replacement `r`
is emitted and scanning resumes AFTER the matched occurrence (leftmost,
non-overlapping), else the character is copied.  For a nonempty pattern,
fuel `s.length` always suffices. -/
def replaceFuel (p r : List Char) : Nat → List Char → List Char
  | 0, s => s
  | _ + 1, [] => []
  | fuel + 1, c :: s =>
    if p.isPrefixOf (c :: s) then r ++ replaceFuel p r fuel ((c :: s).drop p.length)
    else c :: replaceFuel p r fuel s

/-- Python `s.replace(p, r)` (line 806). -/
def pyReplace (s p r : List Char) : List Char := replaceFuel p r s.length s

/-- One feature of the serialized feature set: its attribute table (field
name / value pairs, all text) and its geometry, a vertex container keyed
`paths` or `curvePaths` holding coordinate text. -/
structure Feature where
  attributes : List (List Char × List Char)
  containerKey : List Char
  coords : List Char

/-- The feature set dictionary loaded at line 795 from `feature_set.JSON`:
geometry type tag, spatial reference text, and the features. -/
structure FeatureSet where
  geometryType : List Char
  spatialReference : List Char
  features : List Feature

/-- A JSON string literal: the text wrapped in double quotes. -/
def quoteJ (s : List Char) : List Char := '"' :: (s ++ ['"'])

/-- The serialization of one feature, cut into segments whose concatenation
is the JSON text `"name":"value",...,"containerKey":[coords],`.  The
container key is a segment of its own so that the global text substitution
can be tracked against it. -/
def featureSegs (f : Feature) : List (List Char) :=
  (f.attributes.map fun a => quoteJ a.1 ++ ':' :: (quoteJ a.2 ++ [',']))
    ++ [['"'], f.containerKey, '"' :: ':' :: '[' :: (f.coords ++ [']', ','])]

/-- The serialized feature set dictionary as a segment list:
`"geometryType":"...","spatialReference":"...",` followed by the features. -/
def dumpsSegs (fs : FeatureSet) : List (List Char) :=
  (quoteJ ("geometryType".data) ++ ':' :: (quoteJ fs.geometryType ++ [',']))
    :: (quoteJ ("spatialReference".data) ++ ':' :: (quoteJ fs.spatialReference ++ [',']))
    :: fs.features.flatMap featureSegs

/-- `json.dumps(dictionary)` (line 802): the serialized text. -/
def dumps (fs : FeatureSet) : List Char := (dumpsSegs fs).flatten

/-- The geometry type written at line 799. -/
def polygonType : List Char := "esriGeometryPolygon".data

/-- Replacement source `curvePaths` of line 804. -/
def curvePathsKey : List Char := "curvePaths".data

/-- Replacement target `curveRings` of line 804. -/
def curveRingsKey : List Char := "curveRings".data

/-- Replacement source `paths` of line 804. -/
def pathsKey : List Char := "paths".data

/-- Replacement target `rings` of line 804. -/
def ringsKey : List Char := "rings".data

/-- Line 799: `dictionary['geometryType'] = 'esriGeometryPolygon'`. -/
def setGeometryType (fs : FeatureSet) (g : List Char) : FeatureSet :=
  { geometryType := g, spatialReference := fs.spatialReference,
    features := fs.features }

/-- `polyline_to_polygon` (lines 791-812) on the serialized representation:
the geometry type is set, the dictionary is dumped to text, and the two
GLOBAL string substitutions of lines 804-806 are applied to the whole text
(dict iteration order: `curvePaths` first, then `paths`). -/
def polyline_to_polygon (fs : FeatureSet) : List Char :=
  pyReplace
    (pyReplace (dumps (setGeometryType fs polygonType)) curvePathsKey curveRingsKey)
    pathsKey ringsKey

/-- Spec-side per-key renaming: `paths` to `rings`, `curvePaths` to
`curveRings`, applied to the container key alone. -/
def renameKey (k : List Char) : List Char :=
  if k = curvePathsKey then curveRingsKey else if k = pathsKey then ringsKey else k

/-- Spec-side feature transformation: only the vertex-container key is
renamed; attributes and coordinates stay. -/
def renameFeature (f : Feature) : Feature :=
  { attributes := f.attributes, containerKey := renameKey f.containerKey,
    coords := f.coords }

/-- Text free of both replacement sources. -/
def CleanText (s : List Char) : Prop :=
  ¬ List.IsInfix pathsKey s ∧ ¬ List.IsInfix curvePathsKey s

/-- A segment is safe for a global replace of `p`: it either IS the pattern,
or contains no occurrence and no nonempty suffix of it starts an occurrence
running into the following text (no suffix is a prefix of `p`). -/
def SegOk (p s : List Char) : Prop :=
  s = p ∨ (¬ List.IsInfix p s ∧ ∀ t ∈ s.tails, t ≠ [] → ¬ t <+: p)

/-- A feature set whose only feature carries the attribute
`note = "two paths"`: the attribute VALUE contains the substring `paths`. -/
def exampleFS : FeatureSet :=
  { geometryType := "esriGeometryPolyline".data,
    spatialReference := "wkid 4326".data,
    features := [{ attributes := [("note".data, "two paths".data)],
                   containerKey := "paths".data, coords := "1 2".data }] }

/-- The same feature set with a pattern-free attribute value. -/
def exampleCleanFS : FeatureSet :=
  { geometryType := "esriGeometryPolyline".data,
    spatialReference := "wkid 4326".data,
    features := [{ attributes := [("note".data, "two walks".data)],
                   containerKey := "paths".data, coords := "1 2".data }] }

/-! ### Lemmas: `listIndex` -/

theorem listIndex_cons_self {α : Type} [DecidableEq α] (a : α) (l : List α) :
    listIndex a (a :: l) = 0 := by
  simp [listIndex]

theorem listIndex_cons_ne {α : Type} [DecidableEq α] {a b : α} (h : b ≠ a) (l : List α) :
    listIndex a (b :: l) = listIndex a l + 1 := by
  simp [listIndex, h]

theorem listIndex_lt_length {α : Type} [DecidableEq α] {a : α} {l : List α} (h : a ∈ l) :
    listIndex a l < l.length := by
  induction l with
  | nil => cases h
  | cons b t ih =>
    by_cases hb : b = a
    · simp [listIndex, hb]
    · rcases List.mem_cons.mp h with h1 | h2
      · exact absurd h1.symm hb
      · simpa [listIndex, hb] using ih h2

theorem listIndex_append_left {α : Type} [DecidableEq α] {a : α} {l : List α} (m : List α)
    (h : a ∈ l) : listIndex a (l ++ m) = listIndex a l := by
  induction l with
  | nil => cases h
  | cons b t ih =>
    by_cases hb : b = a
    · simp [listIndex, hb]
    · rcases List.mem_cons.mp h with h1 | h2
      · exact absurd h1.symm hb
      · simp [listIndex, hb, ih h2]

theorem listIndex_append_right {α : Type} [DecidableEq α] {a : α} {l : List α} (m : List α)
    (h : a ∉ l) : listIndex a (l ++ m) = l.length + listIndex a m := by
  induction l with
  | nil => simp [listIndex]
  | cons b t ih =>
    have hb : b ≠ a := fun hba => h (hba ▸ List.mem_cons_self b t)
    have ht : a ∉ t := fun hat => h (List.mem_cons_of_mem b hat)
    simp [listIndex, hb, ih ht]
    omega

theorem listIndex_map {α β : Type} [DecidableEq α] [DecidableEq β] {f : α → β}
    (hf : Function.Injective f) (a : α) (l : List α) :
    listIndex (f a) (l.map f) = listIndex a l := by
  induction l with
  | nil => simp [listIndex]
  | cons b t ih =>
    by_cases hb : b = a
    · simp [listIndex, hb]
    · have : f b ≠ f a := fun he => hb (hf he)
      simp [listIndex, hb, this, ih]

theorem listIndex_self_map {α : Type} [DecidableEq α] {l : List α} (h : l.Nodup) :
    l.map (fun b => listIndex b l) = List.range l.length := by
  induction l with
  | nil => simp
  | cons a t ih =>
    rcases List.nodup_cons.mp h with ⟨ha, ht⟩
    have hmap : t.map (fun b => listIndex b (a :: t)) = t.map (fun b => listIndex b t + 1) := by
      refine List.map_congr_left fun b hb => ?_
      refine listIndex_cons_ne (fun hab => ha ?_) t
      rw [hab]
      exact hb
    rw [List.map_cons, listIndex_cons_self, hmap, List.length_cons, List.range_succ_eq_map,
      ← ih ht, List.map_map]
    rfl

/-! ### Lemmas: `orderedInsert` helpers -/

theorem orderedInsert_of_forall {α : Type} (r : α → α → Prop) [DecidableRel r] {a : α}
    {l : List α} (h : ∀ b ∈ l, r a b) : l.orderedInsert r a = a :: l := by
  cases l with
  | nil => rfl
  | cons b t => exact List.orderedInsert_of_le r t (h b (List.mem_cons_self b t))

theorem orderedInsert_append_of_forall_not {α : Type} (r : α → α → Prop) [DecidableRel r]
    {a : α} {m : List α} (l : List α) (h : ∀ b ∈ m, ¬ r a b) :
    (m ++ l).orderedInsert r a = m ++ l.orderedInsert r a := by
  induction m with
  | nil => simp
  | cons b t ih =>
    have hb : ¬ r a b := h b (List.mem_cons_self b t)
    simp only [List.cons_append, List.orderedInsert, if_neg hb, List.append_eq]
    rw [ih fun c hc => h c (List.mem_cons_of_mem b hc)]

/-! ### Lemmas: bucket concatenation is a stable sort

The dictionary-of-lengths construction of `distance_lines` (collect rows into
buckets keyed by length, then concatenate the buckets in ascending key order)
produces exactly the stable insertion sort of the rows by length. -/

theorem buckets_cons_of_fresh {α : Type} (key : α → ℚ) (x : α) (t : List α) (S : List ℚ)
    (h : key x ∉ S) :
    (S.flatMap fun L => (x :: t).filter fun r => key r = L)
      = S.flatMap fun L => t.filter fun r => key r = L := by
  induction S with
  | nil => simp
  | cons L S' ih =>
    have hL : ¬ (key x = L) := fun he => h (he ▸ List.mem_cons_self L S')
    have h' : key x ∉ S' := fun hm => h (List.mem_cons_of_mem L hm)
    rw [List.flatMap_cons, List.flatMap_cons, ih h']
    congr 1
    simp [List.filter_cons, hL]

theorem buckets_cons_of_mem {α : Type} (key : α → ℚ) (x : α) (t : List α) :
    ∀ S : List ℚ, S.Sorted (· ≤ ·) → S.Nodup → key x ∈ S →
      (S.flatMap fun L => (x :: t).filter fun r => key r = L)
        = (S.flatMap fun L => t.filter fun r => key r = L).orderedInsert
            (fun u v => key u ≤ key v) x
  | [], _, _, hmem => by cases hmem
  | L :: S', hs, hn, hmem => by
    have hs' : S'.Sorted (· ≤ ·) := hs.of_cons
    have hn' : S'.Nodup := (List.nodup_cons.mp hn).2
    by_cases hxL : key x = L
    · have hxS' : key x ∉ S' := fun hm => (List.nodup_cons.mp hn).1 (hxL ▸ hm)
      have hrest := buckets_cons_of_fresh key x t S' hxS'
      have hhead : (x :: t).filter (fun r => key r = L) = x :: t.filter (fun r => key r = L) := by
        simp [List.filter_cons, hxL]
      rw [List.flatMap_cons, List.flatMap_cons, hrest, hhead, orderedInsert_of_forall]
      · simp
      · intro b hb
        rcases List.mem_append.mp hb with hb1 | hb2
        · rcases List.mem_filter.mp hb1 with ⟨_, hb1'⟩
          have : key b = L := of_decide_eq_true hb1'
          rw [hxL, this]
        · rcases List.mem_flatMap.mp hb2 with ⟨L', hL', hbL'⟩
          rcases List.mem_filter.mp hbL' with ⟨_, hb2'⟩
          have : key b = L' := of_decide_eq_true hb2'
          have hLL' : L ≤ L' := List.rel_of_sorted_cons hs L' hL'
          rw [hxL, this]
          exact hLL'
    · have hmem' : key x ∈ S' := by
        rcases List.mem_cons.mp hmem with h1 | h2
        · exact absurd h1 hxL
        · exact h2
      have hLx : L < key x := by
        have hle : L ≤ key x := List.rel_of_sorted_cons hs _ hmem'
        exact lt_of_le_of_ne hle (fun he => hxL he.symm)
      have ih := buckets_cons_of_mem key x t S' hs' hn' hmem'
      have hhead : (x :: t).filter (fun r => key r = L) = t.filter (fun r => key r = L) := by
        simp [List.filter_cons, hxL]
      rw [List.flatMap_cons, List.flatMap_cons, ih, hhead,
        orderedInsert_append_of_forall_not]
      intro b hb
      rcases List.mem_filter.mp hb with ⟨_, hb'⟩
      have : key b = L := of_decide_eq_true hb'
      rw [this]
      exact not_le_of_lt hLx

theorem buckets_insert_of_fresh {α : Type} (key : α → ℚ) (x : α) (t : List α) (S : List ℚ)
    (hs : S.Sorted (· ≤ ·)) (hS : key x ∉ S) (hK : ∀ e ∈ t, key e ≠ key x) :
    ((S.orderedInsert (· ≤ ·) (key x)).flatMap fun L => (x :: t).filter fun r => key r = L)
      = (S.flatMap fun L => t.filter fun r => key r = L).orderedInsert
          (fun u v => key u ≤ key v) x := by
  have hxbucket : (x :: t).filter (fun r => key r = key x) = x :: [] := by
    have ht : t.filter (fun r => key r = key x) = [] := by
      apply List.filter_eq_nil_iff.mpr
      intro e he
      simpa using hK e he
    simp [List.filter_cons, ht]
  induction S with
  | nil =>
    simp only [List.orderedInsert_nil, List.flatMap_cons, List.flatMap_nil, hxbucket,
      List.append_nil, List.orderedInsert_nil]
  | cons L S' ih =>
    have hs' : S'.Sorted (· ≤ ·) := hs.of_cons
    have hxL : key x ≠ L := fun he => hS (he ▸ List.mem_cons_self L S')
    have hxS' : key x ∉ S' := fun hm => hS (List.mem_cons_of_mem L hm)
    by_cases hKL : key x ≤ L
    · rw [List.orderedInsert_of_le _ _ hKL, List.flatMap_cons, hxbucket,
        buckets_cons_of_fresh key x t (L :: S') hS, orderedInsert_of_forall]
      · simp
      · intro b hb
        rcases List.mem_flatMap.mp hb with ⟨L', hL', hbL'⟩
        rcases List.mem_filter.mp hbL' with ⟨_, hb'⟩
        have hbk : key b = L' := of_decide_eq_true hb'
        rcases List.mem_cons.mp hL' with h1 | h2
        · rw [hbk, h1]
          exact hKL
        · rw [hbk]
          exact hKL.trans (List.rel_of_sorted_cons hs L' h2)
    · have hLx : L < key x := lt_of_not_le hKL
      have hbucketL : (x :: t).filter (fun r => key r = L) = t.filter (fun r => key r = L) := by
        simp [List.filter_cons, hxL]
      have hstep : (L :: S').orderedInsert (· ≤ ·) (key x)
          = L :: S'.orderedInsert (· ≤ ·) (key x) := by
        simp [List.orderedInsert, hKL]
      rw [hstep, List.flatMap_cons, List.flatMap_cons, hbucketL, ih hs' hxS',
        orderedInsert_append_of_forall_not]
      intro b hb
      rcases List.mem_filter.mp hb with ⟨_, hb'⟩
      have : key b = L := of_decide_eq_true hb'
      rw [this]
      exact not_le_of_lt hLx

/-- The bucket construction over the sorted distinct keys of a list equals the
stable insertion sort of the list by key. -/
theorem buckets_eq_insertionSort {α : Type} (key : α → ℚ) (l : List α) :
    (((l.map key).dedup.insertionSort (· ≤ ·)).flatMap fun L => l.filter fun r => key r = L)
      = l.insertionSort fun u v => key u ≤ key v := by
  induction l with
  | nil => simp
  | cons x t ih =>
    by_cases hmem : key x ∈ t.map key
    · have hdedup : ((x :: t).map key).dedup = (t.map key).dedup := by
        simp only [List.map_cons]
        exact List.dedup_cons_of_mem hmem
      rw [List.insertionSort, hdedup, buckets_cons_of_mem key x t _
        (List.sorted_insertionSort _ _)
        ((List.perm_insertionSort _ _).nodup_iff.mpr (List.nodup_dedup _))
        (by
          rw [List.mem_insertionSort, List.mem_dedup]
          exact hmem), ih]
    · have hdedup : ((x :: t).map key).dedup = key x :: (t.map key).dedup := by
        simp only [List.map_cons]
        exact List.dedup_cons_of_not_mem hmem
      have hK : ∀ e ∈ t, key e ≠ key x := by
        intro e he heq
        exact hmem (heq ▸ List.mem_map_of_mem key he)
      rw [List.insertionSort, hdedup, List.insertionSort, buckets_insert_of_fresh key x t _
        (List.sorted_insertionSort _ _)
        (by
          rw [List.mem_insertionSort, List.mem_dedup]
          exact hmem) hK, ih]

/-- `bucketed` (the dictionary-by-length construction of `distance_lines`) is
the stable insertion sort of the rows by length. -/
theorem bucketed_eq_insertionSort (rows : List (Comb × ℚ)) :
    bucketed rows = rows.insertionSort fun u v => u.2 ≤ v.2 :=
  buckets_eq_insertionSort Prod.snd rows

/-! ### Lemmas: the `check_dict` / `delete_dict` bookkeeping

For a duplicate-free combination list, a combination is marked for deletion
exactly when it is a self-pair or when its inverse occurs strictly earlier in
the list. -/

theorem combSwap_combSwap (c : Comb) : combSwap (combSwap c) = c := rfl

theorem check_list_append (l : List Comb) (a : Comb) :
    check_list (l ++ [a]) = if a ∉ check_list l ∧ a.1 ≠ a.2
      then check_list l ++ [a, combSwap a] else check_list l := by
  unfold check_list delete_step
  rw [List.foldl_append]
  simp only [List.foldl_cons, List.foldl_nil]
  split
  · rfl
  · rfl

theorem delete_list_append (l : List Comb) (a : Comb) :
    delete_list (l ++ [a]) = if a ∉ check_list l ∧ a.1 ≠ a.2
      then delete_list l else delete_list l ++ [a] := by
  unfold delete_list check_list delete_step
  rw [List.foldl_append]
  simp only [List.foldl_cons, List.foldl_nil]
  split
  · rfl
  · rfl

theorem check_delete_spec (l : List Comb) (hl : l.Nodup) :
    (∀ c : Comb, c ∈ check_list l ↔ c.1 ≠ c.2 ∧ (c ∈ l ∨ combSwap c ∈ l)) ∧
      (∀ c : Comb, c ∈ delete_list l ↔
        c ∈ l ∧ (c.1 = c.2 ∨ (combSwap c ∈ l ∧ listIndex (combSwap c) l < listIndex c l))) := by
  induction l using List.reverseRecOn with
  | nil => simp [check_list, delete_list]
  | append_singleton l a ih =>
    have hl' : l.Nodup := (List.nodup_append.mp hl).1
    have ha : a ∉ l := fun hm => (List.nodup_append.mp hl).2.2 hm (List.mem_singleton.mpr rfl)
    obtain ⟨ih1, ih2⟩ := ih hl'
    have hidx_a : listIndex a (l ++ [a]) = l.length := by
      rw [listIndex_append_right _ ha, listIndex_cons_self]
      omega
    have hcheckmem : a ∈ check_list l ↔ a.1 ≠ a.2 ∧ combSwap a ∈ l := by
      rw [ih1 a]
      constructor
      · rintro ⟨h1, h2 | h3⟩
        · exact absurd h2 ha
        · exact ⟨h1, h3⟩
      · rintro ⟨h1, h2⟩
        exact ⟨h1, Or.inr h2⟩
    by_cases hcond : a ∉ check_list l ∧ a.1 ≠ a.2
    · -- first branch: `a` and its inverse are added to `check_dict`
      have hswap : combSwap a ∉ l := fun hm => hcond.1 (hcheckmem.mpr ⟨hcond.2, hm⟩)
      have hcheck : check_list (l ++ [a]) = check_list l ++ [a, combSwap a] := by
        rw [check_list_append, if_pos hcond]
      have hdel : delete_list (l ++ [a]) = delete_list l := by
        rw [delete_list_append, if_pos hcond]
      constructor
      · intro c
        rw [hcheck]
        constructor
        · intro hc
          rcases List.mem_append.mp hc with hc1 | hc2
          · obtain ⟨h1, h2⟩ := (ih1 c).mp hc1
            refine ⟨h1, ?_⟩
            rcases h2 with h2a | h2b
            · exact Or.inl (List.mem_append_left _ h2a)
            · exact Or.inr (List.mem_append_left _ h2b)
          · rcases List.mem_cons.mp hc2 with hc3 | hc4
            · subst hc3
              exact ⟨hcond.2, Or.inl (List.mem_append_right _ (List.mem_singleton.mpr rfl))⟩
            · have hc5 : c = combSwap a := List.mem_singleton.mp hc4
              subst hc5
              refine ⟨fun he => hcond.2 he.symm, Or.inr ?_⟩
              rw [combSwap_combSwap]
              exact List.mem_append_right _ (List.mem_singleton.mpr rfl)
        · rintro ⟨h1, h2 | h3⟩
          · rcases List.mem_append.mp h2 with h2a | h2b
            · exact List.mem_append_left _ ((ih1 c).mpr ⟨h1, Or.inl h2a⟩)
            · have : c = a := List.mem_singleton.mp h2b
              subst this
              exact List.mem_append_right _ (List.mem_cons_self _ _)
          · rcases List.mem_append.mp h3 with h3a | h3b
            · exact List.mem_append_left _ ((ih1 c).mpr ⟨h1, Or.inr h3a⟩)
            · have h3c : combSwap c = a := List.mem_singleton.mp h3b
              have hc : c = combSwap a := by rw [← h3c, combSwap_combSwap]
              subst hc
              exact List.mem_append_right _ (List.mem_cons_of_mem _ (List.mem_singleton.mpr rfl))
      · intro c
        rw [hdel, ih2 c]
        constructor
        · rintro ⟨h1, h2 | h3⟩
          · exact ⟨List.mem_append_left _ h1, Or.inl h2⟩
          · refine ⟨List.mem_append_left _ h1, Or.inr ⟨List.mem_append_left _ h3.1, ?_⟩⟩
            rw [listIndex_append_left _ h3.1, listIndex_append_left _ h1]
            exact h3.2
        · rintro ⟨h1, h2 | h3⟩
          · rcases List.mem_append.mp h1 with h1a | h1b
            · exact ⟨h1a, Or.inl h2⟩
            · have : c = a := List.mem_singleton.mp h1b
              subst this
              exact absurd h2 hcond.2
          · rcases List.mem_append.mp h1 with h1a | h1b
            · rcases List.mem_append.mp h3.1 with h3a | h3b
              · refine ⟨h1a, Or.inr ⟨h3a, ?_⟩⟩
                rw [listIndex_append_left _ h3a, listIndex_append_left _ h1a] at h3
                exact h3.2
              · have h3c : combSwap c = a := List.mem_singleton.mp h3b
                exfalso
                have hx := h3.2
                rw [h3c, hidx_a, listIndex_append_left _ h1a] at hx
                exact absurd (listIndex_lt_length h1a) (by omega)
            · have : c = a := List.mem_singleton.mp h1b
              subst this
              rcases List.mem_append.mp h3.1 with h3a | h3b
              · exact absurd h3a hswap
              · have h3c : combSwap c = c := List.mem_singleton.mp h3b
                have hd : c.1 = c.2 := congrArg Prod.snd h3c
                exact absurd hd hcond.2
    · -- second branch: `a` is marked for deletion
      have hcond' : a.1 = a.2 ∨ (a.1 ≠ a.2 ∧ combSwap a ∈ l) := by
        by_cases hd : a.1 = a.2
        · exact Or.inl hd
        · refine Or.inr ⟨hd, ?_⟩
          rcases not_and_or.mp hcond with hc1 | hc2
          · exact (hcheckmem.mp (not_not.mp hc1)).2
          · exact absurd hd hc2
      have hcheck : check_list (l ++ [a]) = check_list l := by
        rw [check_list_append, if_neg hcond]
      have hdel : delete_list (l ++ [a]) = delete_list l ++ [a] := by
        rw [delete_list_append, if_neg hcond]
      constructor
      · intro c
        rw [hcheck, ih1 c]
        constructor
        · rintro ⟨h1, h2 | h3⟩
          · exact ⟨h1, Or.inl (List.mem_append_left _ h2)⟩
          · exact ⟨h1, Or.inr (List.mem_append_left _ h3)⟩
        · rintro ⟨h1, h2 | h3⟩
          · rcases List.mem_append.mp h2 with h2a | h2b
            · exact ⟨h1, Or.inl h2a⟩
            · have : c = a := List.mem_singleton.mp h2b
              subst this
              rcases hcond' with hd | ⟨_, hsw⟩
              · exact absurd hd h1
              · exact ⟨h1, Or.inr hsw⟩
          · rcases List.mem_append.mp h3 with h3a | h3b
            · exact ⟨h1, Or.inr h3a⟩
            · have h3c : combSwap c = a := List.mem_singleton.mp h3b
              have hc : c = combSwap a := by rw [← h3c, combSwap_combSwap]
              subst hc
              rcases hcond' with hd | ⟨_, hsw⟩
              · exact absurd hd.symm h1
              · exact ⟨h1, Or.inl hsw⟩
      · intro c
        rw [hdel]
        constructor
        · intro hc
          rcases List.mem_append.mp hc with hc1 | hc2
          · obtain ⟨h1, h2⟩ := (ih2 c).mp hc1
            refine ⟨List.mem_append_left _ h1, ?_⟩
            rcases h2 with h2a | h2b
            · exact Or.inl h2a
            · refine Or.inr ⟨List.mem_append_left _ h2b.1, ?_⟩
              rw [listIndex_append_left _ h2b.1, listIndex_append_left _ h1]
              exact h2b.2
          · have : c = a := List.mem_singleton.mp hc2
            subst this
            refine ⟨List.mem_append_right _ (List.mem_singleton.mpr rfl), ?_⟩
            rcases hcond' with hd | ⟨_, hsw⟩
            · exact Or.inl hd
            · refine Or.inr ⟨List.mem_append_left _ hsw, ?_⟩
              rw [listIndex_append_left _ hsw, hidx_a]
              exact listIndex_lt_length hsw
        · rintro ⟨h1, h2 | h3⟩
          · rcases List.mem_append.mp h1 with h1a | h1b
            · exact List.mem_append_left _ ((ih2 c).mpr ⟨h1a, Or.inl h2⟩)
            · have : c = a := List.mem_singleton.mp h1b
              subst this
              exact List.mem_append_right _ (List.mem_singleton.mpr rfl)
          · rcases List.mem_append.mp h1 with h1a | h1b
            · rcases List.mem_append.mp h3.1 with h3a | h3b
              · refine List.mem_append_left _ ((ih2 c).mpr ⟨h1a, Or.inr ⟨h3a, ?_⟩⟩)
                rw [listIndex_append_left _ h3a, listIndex_append_left _ h1a] at h3
                exact h3.2
              · have h3c : combSwap c = a := List.mem_singleton.mp h3b
                exfalso
                have hx := h3.2
                rw [h3c, hidx_a, listIndex_append_left _ h1a] at hx
                exact absurd (listIndex_lt_length h1a) (by omega)
            · have : c = a := List.mem_singleton.mp h1b
              subst this
              exact List.mem_append_right _ (List.mem_singleton.mpr rfl)

/-! ### Lemmas: structure of the combination table -/

theorem segLen2_comm (p q : Pt) : segLen2 p q = segLen2 q p := by
  unfold segLen2
  ring

theorem combs_eq_product {β : Type} (near : Pt → β → Pt) (aRows : List (Nat × Pt))
    (bRows : List (Nat × β)) :
    (combsWithLen near aRows bRows).map Prod.fst
      = (aRows.map Prod.fst) ×ˢ (bRows.map Prod.fst) := by
  show _ = (aRows.map Prod.fst).flatMap fun a => (bRows.map Prod.fst).map (Prod.mk a)
  simp [combsWithLen, List.map_flatMap, List.flatMap_map, List.map_map, Function.comp_def]

theorem listIndex_product {a b : ℕ} {ids₁ ids₂ : List ℕ} (ha : a ∈ ids₁) (hb : b ∈ ids₂) :
    listIndex (a, b) (ids₁ ×ˢ ids₂) = listIndex a ids₁ * ids₂.length + listIndex b ids₂ := by
  induction ids₁ with
  | nil => cases ha
  | cons a' t ih =>
    rw [List.product_cons]
    by_cases haa : a' = a
    · subst haa
      rw [listIndex_append_left _ (List.mem_map_of_mem _ hb), listIndex_cons_self,
        listIndex_map (fun x y h => (Prod.mk.injEq _ _ _ _).mp h |>.2)]
      omega
    · have hnot : (a, b) ∉ ids₂.map (Prod.mk a') := by
        intro hm
        rcases List.mem_map.mp hm with ⟨y, _, hy⟩
        exact haa ((Prod.mk.injEq _ _ _ _).mp hy |>.1)
      have ha' : a ∈ t := by
        rcases List.mem_cons.mp ha with h1 | h2
        · exact absurd h1.symm haa
        · exact h2
      rw [listIndex_append_right _ hnot, ih ha', List.length_map,
        listIndex_cons_ne haa]
      ring

theorem listIndex_inj {α : Type} [DecidableEq α] {x y : α} {l : List α} (hx : x ∈ l)
    (hy : y ∈ l) (h : listIndex x l = listIndex y l) : x = y := by
  induction l with
  | nil => cases hx
  | cons b t ih =>
    by_cases hbx : b = x
    · by_cases hby : b = y
      · rw [← hbx, ← hby]
      · rw [← hbx] at h
        rw [listIndex_cons_self] at h
        have hyt : y ∈ t := by
          rcases List.mem_cons.mp hy with h1 | h2
          · exact absurd h1.symm hby
          · exact h2
        rw [listIndex_cons_ne hby] at h
        omega
    · by_cases hby : b = y
      · rw [← hby] at h
        rw [listIndex_cons_self, listIndex_cons_ne hbx] at h
        omega
      · have hxt : x ∈ t := by
          rcases List.mem_cons.mp hx with h1 | h2
          · exact absurd h1.symm hbx
          · exact h2
        have hyt : y ∈ t := by
          rcases List.mem_cons.mp hy with h1 | h2
          · exact absurd h1.symm hby
          · exact h2
        rw [listIndex_cons_ne hbx, listIndex_cons_ne hby] at h
        exact ih hxt hyt (by omega)

theorem dl_map_fst_selfjoin {β : Type} (near : Pt → β → Pt) (aRows : List (Nat × Pt))
    (bRows : List (Nat × β)) :
    (distance_lines near aRows bRows true).map Prod.fst
      = ((combsWithLen near aRows bRows).map Prod.fst).filter
          (fun c => c ∉ delete_list ((combsWithLen near aRows bRows).map Prod.fst)) := by
  unfold distance_lines
  simp only [if_true, List.map_map]
  rw [List.filter_map]
  rfl

theorem rank_product_lt {pa pb n : ℕ} (hpb : pb < n) (h : pa < pb) :
    pa * n + pb < pb * n + pa :=
  calc pa * n + pb < pa * n + n := by omega
    _ = (pa + 1) * n := by ring
    _ ≤ pb * n := Nat.mul_le_mul_right n h
    _ ≤ pb * n + pa := Nat.le_add_right _ _

/-- C2: for `distance_lines` with the same point collection of `n` features on
both sides, all `n × n` ordered pairs are computed; a pair `(i, j)` and its
inverse `(j, i)` carry identical segment lengths (symmetry of the Euclidean
distance, here in squared form); in the final output exactly one orientation
of each unordered pair with `i ≠ j` survives the deduplication, and every
self-pair row `(i, i)` is deleted. -/
theorem distance_lines_selfjoin_symmetry_dedup (pts : List (Nat × Pt))
    (hn : (pts.map Prod.fst).Nodup) :
    (combsWithLen nearPoint pts pts).length = pts.length * pts.length
    ∧ (∀ p ∈ pts, ∀ q ∈ pts,
        ((p.1, q.1), segLen2 p.2 q.2) ∈ combsWithLen nearPoint pts pts
          ∧ ((q.1, p.1), segLen2 p.2 q.2) ∈ combsWithLen nearPoint pts pts)
    ∧ (∀ p ∈ pts, ∀ q ∈ pts, p.1 ≠ q.1 →
        ((p.1, q.1) ∈ (dl_points pts).map Prod.fst
          ↔ ¬ (q.1, p.1) ∈ (dl_points pts).map Prod.fst))
    ∧ ∀ p ∈ pts, (p.1, p.1) ∉ (dl_points pts).map Prod.fst := by
  have hprod := combs_eq_product nearPoint pts pts
  have hcombs_nodup : ((combsWithLen nearPoint pts pts).map Prod.fst).Nodup := by
    rw [hprod]
    exact hn.product hn
  obtain ⟨-, hdel⟩ := check_delete_spec _ hcombs_nodup
  have hsurv : ∀ c : Comb, c ∈ (dl_points pts).map Prod.fst
      ↔ c ∈ (combsWithLen nearPoint pts pts).map Prod.fst
        ∧ c ∉ delete_list ((combsWithLen nearPoint pts pts).map Prod.fst) := by
    intro c
    rw [dl_points, dl_map_fst_selfjoin, List.mem_filter]
    simp
  refine ⟨?_, ?_, ?_, ?_⟩
  · have hlen := congrArg List.length hprod
    rwa [List.length_map, List.length_product, List.length_map] at hlen
  · intro p hp q hq
    constructor
    · exact List.mem_flatMap.mpr ⟨p, hp, List.mem_map.mpr ⟨q, hq, rfl⟩⟩
    · refine List.mem_flatMap.mpr ⟨q, hq, List.mem_map.mpr ⟨p, hp, ?_⟩⟩
      simp [nearPoint, segLen2_comm]
  · intro p hp q hq hne
    have ha : p.1 ∈ pts.map Prod.fst := List.mem_map_of_mem _ hp
    have hb : q.1 ∈ pts.map Prod.fst := List.mem_map_of_mem _ hq
    have hmem_ab : ((p.1, q.1) : Comb) ∈ (combsWithLen nearPoint pts pts).map Prod.fst := by
      rw [hprod]
      exact List.mem_product.mpr ⟨ha, hb⟩
    have hmem_ba : ((q.1, p.1) : Comb) ∈ (combsWithLen nearPoint pts pts).map Prod.fst := by
      rw [hprod]
      exact List.mem_product.mpr ⟨hb, ha⟩
    have hidx_ab : listIndex (p.1, q.1) ((combsWithLen nearPoint pts pts).map Prod.fst)
        = listIndex p.1 (pts.map Prod.fst) * (pts.map Prod.fst).length
          + listIndex q.1 (pts.map Prod.fst) := by
      rw [hprod]
      exact listIndex_product ha hb
    have hidx_ba : listIndex (q.1, p.1) ((combsWithLen nearPoint pts pts).map Prod.fst)
        = listIndex q.1 (pts.map Prod.fst) * (pts.map Prod.fst).length
          + listIndex p.1 (pts.map Prod.fst) := by
      rw [hprod]
      exact listIndex_product hb ha
    have hpa : listIndex p.1 (pts.map Prod.fst) < (pts.map Prod.fst).length :=
      listIndex_lt_length ha
    have hpb : listIndex q.1 (pts.map Prod.fst) < (pts.map Prod.fst).length :=
      listIndex_lt_length hb
    have hpne : listIndex p.1 (pts.map Prod.fst) ≠ listIndex q.1 (pts.map Prod.fst) :=
      fun he => hne (listIndex_inj ha hb he)
    rw [hsurv, hsurv, hdel, hdel]
    simp only [combSwap]
    rcases Nat.lt_or_ge (listIndex p.1 (pts.map Prod.fst))
      (listIndex q.1 (pts.map Prod.fst)) with hlt | hge
    · have hord := rank_product_lt hpb hlt
      refine iff_of_true ⟨hmem_ab, ?_⟩ ?_
      · rintro ⟨-, hd | hbef⟩
        · exact hne hd
        · rw [hidx_ab, hidx_ba] at hbef
          exact absurd hbef.2 (Nat.lt_asymm hord)
      · rintro ⟨-, hnodel⟩
        refine hnodel ⟨hmem_ba, Or.inr ⟨hmem_ab, ?_⟩⟩
        rw [hidx_ab, hidx_ba]
        exact hord
    · have hlt' : listIndex q.1 (pts.map Prod.fst) < listIndex p.1 (pts.map Prod.fst) :=
        lt_of_le_of_ne hge (fun he => hpne he.symm)
      have hord := rank_product_lt hpa hlt'
      refine iff_of_false ?_ (not_not_intro ⟨hmem_ba, ?_⟩)
      · rintro ⟨-, hnodel⟩
        refine hnodel ⟨hmem_ab, Or.inr ⟨hmem_ba, ?_⟩⟩
        rw [hidx_ab, hidx_ba]
        exact hord
      · rintro ⟨-, hd | hbef⟩
        · exact hne hd.symm
        · rw [hidx_ab, hidx_ba] at hbef
          exact absurd hbef.2 (Nat.lt_asymm hord)
  · intro p hp
    rw [hsurv]
    rintro ⟨hmem, hnodel⟩
    exact hnodel ((hdel _).mpr ⟨hmem, Or.inl rfl⟩)

/-! ### Lemmas: small list utilities -/

theorem flatMap_singleton_eq_map {α β : Type} (f : α → β) (l : List α) :
    (l.flatMap fun a => [f a]) = l.map f := by
  induction l with
  | nil => rfl
  | cons x t ih => simp [List.flatMap_cons, ih]

theorem flatMap_congr_mem {α β : Type} {f g : α → List β} {l : List α}
    (h : ∀ a ∈ l, f a = g a) : l.flatMap f = l.flatMap g := by
  induction l with
  | nil => rfl
  | cons x t ih =>
    rw [List.flatMap_cons, List.flatMap_cons, h x (List.mem_cons_self x t),
      ih fun a ha => h a (List.mem_cons_of_mem x ha)]

theorem flatMap_eq_nil_of_forall {α β : Type} {f : α → List β} {l : List α}
    (h : ∀ a ∈ l, f a = []) : l.flatMap f = [] := by
  induction l with
  | nil => rfl
  | cons x t ih =>
    rw [List.flatMap_cons, h x (List.mem_cons_self x t),
      ih fun a ha => h a (List.mem_cons_of_mem x ha), List.nil_append]

theorem lookup_of_nodup {γ : Type} {pts : List (Nat × γ)} (hn : (pts.map Prod.fst).Nodup)
    {p : Nat × γ} (hp : p ∈ pts) : pts.lookup p.1 = some p.2 := by
  induction pts with
  | nil => cases hp
  | cons q t ih =>
    rcases List.mem_cons.mp hp with h1 | h2
    · subst h1
      simp [List.lookup]
    · have hq : q.1 ≠ p.1 := by
        intro he
        have : q.1 ∈ t.map Prod.fst := he ▸ List.mem_map_of_mem _ h2
        exact (List.nodup_cons.mp (by simpa using hn)).1 this
      have := ih (List.nodup_cons.mp (by simpa using hn)).2 h2
      have hbeq : (p.1 == q.1) = false := beq_eq_false_iff_ne.mpr fun he => hq he.symm
      simpa [List.lookup, hbeq] using this

theorem segLen2_self (p : Pt) : segLen2 p p = 0 := by
  simp [segLen2]

theorem segLen2_nonneg (p q : Pt) : 0 ≤ segLen2 p q := by
  unfold segLen2
  positivity

theorem segLen2_eq_zero_iff {p q : Pt} : segLen2 p q = 0 ↔ p = q := by
  unfold segLen2
  constructor
  · intro h
    have h1 : (p.1 - q.1) ^ 2 = 0 ∧ (p.2 - q.2) ^ 2 = 0 := by
      constructor <;> nlinarith [sq_nonneg (p.1 - q.1), sq_nonneg (p.2 - q.2)]
    have e1 : p.1 = q.1 := by nlinarith [h1.1]
    have e2 : p.2 = q.2 := by nlinarith [h1.2]
    exact Prod.ext e1 e2
  · intro h
    subst h
    ring

/-! ### Lemmas: a stable sort commutes with filtering -/

theorem orderedInsert_filter_pos {α : Type} (r : α → α → Prop) [DecidableRel r]
    [IsTrans α r] {p : α → Bool} {x : α} (hpx : p x = true) :
    ∀ {m : List α}, m.Sorted r → (m.orderedInsert r x).filter p
      = (m.filter p).orderedInsert r x
  | [], _ => by simp [hpx]
  | y :: m', hm => by
    by_cases hr : r x y
    · rw [List.orderedInsert_of_le r m' hr, List.filter_cons, if_pos hpx]
      by_cases hpy : p y = true
      · rw [List.filter_cons, if_pos hpy, List.orderedInsert_of_le]
        exact hr
      · rw [List.filter_cons, if_neg hpy, orderedInsert_of_forall]
        intro b hb
        have hb' : b ∈ m' := List.mem_of_mem_filter hb
        exact Trans.trans hr (List.rel_of_sorted_cons hm b hb')
    · have step : (y :: m').orderedInsert r x = y :: m'.orderedInsert r x := by
        simp [List.orderedInsert, hr]
      rw [step, List.filter_cons, List.filter_cons]
      by_cases hpy : p y = true
      · rw [if_pos hpy, if_pos hpy, orderedInsert_filter_pos r hpx hm.of_cons]
        have step2 : (y :: m'.filter p).orderedInsert r x
            = y :: (m'.filter p).orderedInsert r x := by
          simp [List.orderedInsert, hr]
        rw [step2]
      · rw [if_neg hpy, if_neg hpy, orderedInsert_filter_pos r hpx hm.of_cons]

theorem orderedInsert_filter_neg {α : Type} (r : α → α → Prop) [DecidableRel r]
    {p : α → Bool} {x : α} (hpx : ¬ p x = true) :
    ∀ m : List α, (m.orderedInsert r x).filter p = m.filter p
  | [] => by simp [hpx]
  | y :: m' => by
    by_cases hr : r x y
    · rw [List.orderedInsert_of_le r m' hr, List.filter_cons, if_neg hpx]
    · have step : (y :: m').orderedInsert r x = y :: m'.orderedInsert r x := by
        simp [List.orderedInsert, hr]
      rw [step, List.filter_cons, List.filter_cons, orderedInsert_filter_neg r hpx m']

theorem insertionSort_filter {α : Type} (r : α → α → Prop) [DecidableRel r]
    [IsTotal α r] [IsTrans α r] (p : α → Bool) (l : List α) :
    (l.filter p).insertionSort r = (l.insertionSort r).filter p := by
  induction l with
  | nil => rfl
  | cons x t ih =>
    by_cases hpx : p x = true
    · rw [List.filter_cons, if_pos hpx, List.insertionSort, List.insertionSort, ih,
        orderedInsert_filter_pos r hpx (List.sorted_insertionSort r t)]
    · rw [List.filter_cons, if_neg hpx, List.insertionSort, ih,
        orderedInsert_filter_neg r hpx]

/-! ### Lemmas: the self-join groups of `distance_lines` -/

theorem dl_points_eq (pts : List (Nat × Pt)) :
    dl_points pts = ((combsWithLen nearPoint pts pts).filter
        (fun r => r.1 ∉ delete_list ((combsWithLen nearPoint pts pts).map Prod.fst))).map
      (fun r => (r.1,
        (listIndex r.1 (fc_out_list (combsWithLen nearPoint pts pts) r.1.1) : ℤ) - 1,
        (listIndex r.1 (other_out_list (combsWithLen nearPoint pts pts) r.1.2) : ℤ) - 1)) := by
  unfold dl_points distance_lines
  simp

theorem del_iff_pos {pts : List (Nat × Pt)} (hn : (pts.map Prod.fst).Nodup)
    {p q : Nat × Pt} (hp : p ∈ pts) (hq : q ∈ pts) :
    ((p.1, q.1) : Comb) ∈ delete_list ((combsWithLen nearPoint pts pts).map Prod.fst)
      ↔ ¬ listIndex p.1 (pts.map Prod.fst) < listIndex q.1 (pts.map Prod.fst) := by
  have hprod := combs_eq_product nearPoint pts pts
  have hcombs_nodup : ((combsWithLen nearPoint pts pts).map Prod.fst).Nodup := by
    rw [hprod]
    exact hn.product hn
  obtain ⟨-, hdel⟩ := check_delete_spec _ hcombs_nodup
  have ha : p.1 ∈ pts.map Prod.fst := List.mem_map_of_mem _ hp
  have hb : q.1 ∈ pts.map Prod.fst := List.mem_map_of_mem _ hq
  have hmem_ab : ((p.1, q.1) : Comb) ∈ (combsWithLen nearPoint pts pts).map Prod.fst := by
    rw [hprod]
    exact List.mem_product.mpr ⟨ha, hb⟩
  have hmem_ba : ((q.1, p.1) : Comb) ∈ (combsWithLen nearPoint pts pts).map Prod.fst := by
    rw [hprod]
    exact List.mem_product.mpr ⟨hb, ha⟩
  have hidx_ab : listIndex (p.1, q.1) ((combsWithLen nearPoint pts pts).map Prod.fst)
      = listIndex p.1 (pts.map Prod.fst) * (pts.map Prod.fst).length
        + listIndex q.1 (pts.map Prod.fst) := by
    rw [hprod]
    exact listIndex_product ha hb
  have hidx_ba : listIndex (q.1, p.1) ((combsWithLen nearPoint pts pts).map Prod.fst)
      = listIndex q.1 (pts.map Prod.fst) * (pts.map Prod.fst).length
        + listIndex p.1 (pts.map Prod.fst) := by
    rw [hprod]
    exact listIndex_product hb ha
  have hpa : listIndex p.1 (pts.map Prod.fst) < (pts.map Prod.fst).length :=
    listIndex_lt_length ha
  have hpb : listIndex q.1 (pts.map Prod.fst) < (pts.map Prod.fst).length :=
    listIndex_lt_length hb
  rw [hdel]
  simp only [combSwap]
  constructor
  · rintro ⟨-, hd | hbef⟩
    · rw [hd]
      exact lt_irrefl _
    · rw [hidx_ab, hidx_ba] at hbef
      intro hlt
      exact absurd hbef.2 (Nat.lt_asymm (rank_product_lt hpb hlt))
  · intro hnlt
    refine ⟨hmem_ab, ?_⟩
    rcases Nat.lt_or_ge (listIndex q.1 (pts.map Prod.fst))
      (listIndex p.1 (pts.map Prod.fst)) with hlt | hge
    · refine Or.inr ⟨hmem_ba, ?_⟩
      rw [hidx_ab, hidx_ba]
      exact rank_product_lt hpa hlt
    · have : listIndex p.1 (pts.map Prod.fst) = listIndex q.1 (pts.map Prod.fst) := by omega
      exact Or.inl (listIndex_inj ha hb this)

theorem filter_fst_eq {γ : Type} {pts : List (Nat × γ)} (hn : (pts.map Prod.fst).Nodup)
    {pa : Nat × γ} (hpa : pa ∈ pts) :
    pts.filter (fun q => q.1 = pa.1) = [pa] := by
  induction pts with
  | nil => cases hpa
  | cons x t ih =>
    have hx : x.1 ∉ t.map Prod.fst := (List.nodup_cons.mp (by simpa using hn)).1
    rcases List.mem_cons.mp hpa with h1 | h2
    · rw [List.filter_cons, if_pos (by rw [h1]; simp)]
      have ht : t.filter (fun q => q.1 = pa.1) = [] := by
        refine List.filter_eq_nil_iff.mpr fun q hq hqa => ?_
        have hq1 : q.1 = pa.1 := of_decide_eq_true hqa
        apply hx
        rw [← h1, ← hq1]
        exact List.mem_map_of_mem _ hq
      rw [ht, h1]
    · have hxne : ¬ (x.1 = pa.1) := by
        intro he
        exact hx (he ▸ List.mem_map_of_mem _ h2)
      rw [List.filter_cons, if_neg (by simpa using hxne)]
      exact ih (List.nodup_cons.mp (by simpa using hn)).2 h2

theorem flatMap_ite_single {α β : Type} [DecidableEq α] {l : List α} (hl : l.Nodup)
    {pa : α} (hpa : pa ∈ l) (X : List β) :
    (l.flatMap fun p => if p = pa then X else []) = X := by
  induction l with
  | nil => cases hpa
  | cons x t ih =>
    rcases List.mem_cons.mp hpa with h1 | h2
    · rw [List.flatMap_cons, if_pos h1.symm]
      have ht : (t.flatMap fun p => if p = pa then X else []) = [] := by
        refine flatMap_eq_nil_of_forall fun p hp => if_neg fun he => ?_
        exact (List.nodup_cons.mp hl).1 (by rw [← h1, ← he]; exact hp)
      rw [ht, List.append_nil]
    · rw [List.flatMap_cons,
        if_neg (fun he => (List.nodup_cons.mp hl).1 (by rw [he]; exact h2)),
        List.nil_append, ih (List.nodup_cons.mp hl).2 h2]

theorem fc_group_selfjoin {pts : List (Nat × Pt)} (hn : (pts.map Prod.fst).Nodup)
    {pa : Nat × Pt} (hpa : pa ∈ pts) :
    (combsWithLen nearPoint pts pts).filter (fun r => r.1.1 = pa.1)
      = pts.map fun q => ((pa.1, q.1), segLen2 pa.2 q.2) := by
  rw [combsWithLen, List.filter_flatMap]
  have hblock : ∀ p ∈ pts,
      ((pts.map fun q => ((p.1, q.1), segLen2 p.2 (nearPoint p.2 q.2))).filter
          fun r => r.1.1 = pa.1)
        = if p = pa then pts.map (fun q => ((pa.1, q.1), segLen2 pa.2 q.2)) else [] := by
    intro p hp
    rw [List.filter_map]
    by_cases hppa : p = pa
    · subst hppa
      rw [if_pos rfl]
      have hcomp : ((fun r : Comb × ℚ => decide (r.1.1 = p.1)) ∘
          fun q : ℕ × Pt => ((p.1, q.1), segLen2 p.2 (nearPoint p.2 q.2))) = fun _ => true := by
        funext q
        simp
      rw [hcomp, List.filter_true]
      rfl
    · rw [if_neg hppa]
      have hfst : ¬ (p.1 = pa.1) := fun he => hppa (List.inj_on_of_nodup_map hn hp hpa he)
      have hcomp : ((fun r : Comb × ℚ => decide (r.1.1 = pa.1)) ∘
          fun q : ℕ × Pt => ((p.1, q.1), segLen2 p.2 (nearPoint p.2 q.2))) = fun _ => false := by
        funext q
        simpa using hfst
      rw [hcomp, List.filter_false, List.map_nil]
  rw [flatMap_congr_mem hblock, flatMap_ite_single (hn.of_map) hpa]

theorem other_group_selfjoin {pts : List (Nat × Pt)} (hn : (pts.map Prod.fst).Nodup)
    {pa : Nat × Pt} (hpa : pa ∈ pts) :
    (combsWithLen nearPoint pts pts).filter (fun r => r.1.2 = pa.1)
      = pts.map fun p => ((p.1, pa.1), segLen2 p.2 pa.2) := by
  rw [combsWithLen, List.filter_flatMap]
  have hblock : ∀ p ∈ pts,
      ((pts.map fun q => ((p.1, q.1), segLen2 p.2 (nearPoint p.2 q.2))).filter
          fun r => r.1.2 = pa.1)
        = [((p.1, pa.1), segLen2 p.2 pa.2)] := by
    intro p hp
    rw [List.filter_map]
    have hcomp : ((fun r : Comb × ℚ => decide (r.1.2 = pa.1)) ∘
        fun q : ℕ × Pt => ((p.1, q.1), segLen2 p.2 (nearPoint p.2 q.2)))
          = fun q : ℕ × Pt => decide (q.1 = pa.1) := by
      funext q
      simp
    rw [hcomp, filter_fst_eq hn hpa]
    rfl
  rw [flatMap_congr_mem hblock, flatMap_singleton_eq_map]

/-- The self-join rows that survive deletion and involve the feature `pa`
(on either side), in row order: first one row `(q, pa)` for every feature `q`
before `pa`, then one row `(pa, q)` for every feature `q` after `pa`. -/
theorem kept_involving_eq {u v : List (Nat × Pt)} {pa : Nat × Pt}
    (hn : ((u ++ pa :: v).map Prod.fst).Nodup) :
    ((combsWithLen nearPoint (u ++ pa :: v) (u ++ pa :: v)).filter fun r =>
        decide (r.1.1 = pa.1 ∨ r.1.2 = pa.1) &&
          decide (r.1 ∉ delete_list
            ((combsWithLen nearPoint (u ++ pa :: v) (u ++ pa :: v)).map Prod.fst)))
      = u.map (fun q => ((q.1, pa.1), segLen2 q.2 pa.2))
        ++ v.map (fun q => ((pa.1, q.1), segLen2 pa.2 q.2)) := by
  have hpa : pa ∈ u ++ pa :: v := List.mem_append_right _ (List.mem_cons_self _ _)
  have hn' : (u.map Prod.fst ++ pa.1 :: v.map Prod.fst).Nodup := by simpa using hn
  obtain ⟨hnu, hnpav, hdisj⟩ := List.nodup_append.mp hn'
  have hpau : pa.1 ∉ u.map Prod.fst := fun hm => hdisj hm (List.mem_cons_self _ _)
  have hpav : pa.1 ∉ v.map Prod.fst := (List.nodup_cons.mp hnpav).1
  have hids : (u ++ pa :: v).map Prod.fst = u.map Prod.fst ++ pa.1 :: v.map Prod.fst := by
    simp
  have posu : ∀ q ∈ u, listIndex q.1 ((u ++ pa :: v).map Prod.fst) < u.length := by
    intro q hq
    rw [hids, listIndex_append_left _ (List.mem_map_of_mem _ hq)]
    have := listIndex_lt_length (List.mem_map_of_mem Prod.fst hq)
    simpa using this
  have posa : listIndex pa.1 ((u ++ pa :: v).map Prod.fst) = u.length := by
    rw [hids, listIndex_append_right _ hpau, listIndex_cons_self]
    simp
  have posv : ∀ q ∈ v, u.length < listIndex q.1 ((u ++ pa :: v).map Prod.fst) := by
    intro q hq
    have h1 : q.1 ∉ u.map Prod.fst := fun hm =>
      hdisj hm (List.mem_cons_of_mem _ (List.mem_map_of_mem _ hq))
    have h2 : pa.1 ≠ q.1 := fun he => hpav (he ▸ List.mem_map_of_mem _ hq)
    rw [hids, listIndex_append_right _ h1, listIndex_cons_ne h2]
    have : (u.map Prod.fst).length = u.length := by simp
    omega
  have hufst : ∀ p ∈ u, ¬ (p.1 = pa.1) := fun p hp he =>
    hpau (he ▸ List.mem_map_of_mem Prod.fst hp)
  have hvfst : ∀ p ∈ v, ¬ (p.1 = pa.1) := fun p hp he =>
    hpav (he ▸ List.mem_map_of_mem Prod.fst hp)
  have hkept : ∀ p ∈ u ++ pa :: v, ∀ q ∈ u ++ pa :: v,
      ((p.1, q.1) ∉ delete_list
          ((combsWithLen nearPoint (u ++ pa :: v) (u ++ pa :: v)).map Prod.fst)
        ↔ listIndex p.1 ((u ++ pa :: v).map Prod.fst)
            < listIndex q.1 ((u ++ pa :: v).map Prod.fst)) := by
    intro p hp q hq
    rw [del_iff_pos hn hp hq]
    exact not_not
  have hclean : combsWithLen nearPoint (u ++ pa :: v) (u ++ pa :: v)
      = (u ++ pa :: v).flatMap fun p =>
          (u ++ pa :: v).map fun q => ((p.1, q.1), segLen2 p.2 q.2) := rfl
  rw [hclean, List.filter_flatMap]
  have hblock : ∀ p ∈ u ++ pa :: v,
      (((u ++ pa :: v).map fun q => ((p.1, q.1), segLen2 p.2 q.2)).filter fun r =>
          decide (r.1.1 = pa.1 ∨ r.1.2 = pa.1) &&
            decide (r.1 ∉ delete_list
              (((u ++ pa :: v).flatMap fun p' =>
                (u ++ pa :: v).map fun q => ((p'.1, q.1), segLen2 p'.2 q.2)).map Prod.fst)))
        = (((u ++ pa :: v).filter fun q =>
              decide (p.1 = pa.1 ∨ q.1 = pa.1) &&
                decide (listIndex p.1 ((u ++ pa :: v).map Prod.fst)
                  < listIndex q.1 ((u ++ pa :: v).map Prod.fst))).map
            fun q => ((p.1, q.1), segLen2 p.2 q.2)) := by
    intro p hp
    rw [List.filter_map]
    congr 1
    refine List.filter_congr fun q hq => ?_
    simp only [Function.comp_apply]
    congr 1
    rw [decide_eq_decide]
    exact hclean ▸ hkept p hp q hq
  rw [flatMap_congr_mem hblock, List.flatMap_append, List.flatMap_cons]
  have hu : ∀ p ∈ u,
      ((((u ++ pa :: v).filter fun q =>
          decide (p.1 = pa.1 ∨ q.1 = pa.1) &&
            decide (listIndex p.1 ((u ++ pa :: v).map Prod.fst)
              < listIndex q.1 ((u ++ pa :: v).map Prod.fst))).map
        fun q => ((p.1, q.1), segLen2 p.2 q.2)))
      = [((p.1, pa.1), segLen2 p.2 pa.2)] := by
    intro p hp
    have hfil : ((u ++ pa :: v).filter fun q =>
        decide (p.1 = pa.1 ∨ q.1 = pa.1) &&
          decide (listIndex p.1 ((u ++ pa :: v).map Prod.fst)
            < listIndex q.1 ((u ++ pa :: v).map Prod.fst))) = [pa] := by
      rw [List.filter_append, List.filter_cons]
      have h1 : (u.filter fun q =>
          decide (p.1 = pa.1 ∨ q.1 = pa.1) && decide (listIndex p.1 ((u ++ pa :: v).map Prod.fst)
            < listIndex q.1 ((u ++ pa :: v).map Prod.fst))) = [] := by
        refine List.filter_eq_nil_iff.mpr fun q hq hc => ?_
        simp only [Bool.and_eq_true, decide_eq_true_eq] at hc
        rcases hc.1 with h | h
        · exact hufst p hp h
        · exact hufst q hq h
      have h2 : (v.filter fun q =>
          decide (p.1 = pa.1 ∨ q.1 = pa.1) && decide (listIndex p.1 ((u ++ pa :: v).map Prod.fst)
            < listIndex q.1 ((u ++ pa :: v).map Prod.fst))) = [] := by
        refine List.filter_eq_nil_iff.mpr fun q hq hc => ?_
        simp only [Bool.and_eq_true, decide_eq_true_eq] at hc
        rcases hc.1 with h | h
        · exact hufst p hp h
        · exact hvfst q hq h
      rw [h1]
      rw [if_pos]
      · rw [h2]
        rfl
      · simp only [Bool.and_eq_true, decide_eq_true_eq]
        exact ⟨Or.inr trivial, posa ▸ posu p hp⟩
    rw [hfil]
    rfl
  have hpa_block : ((((u ++ pa :: v).filter fun q =>
      decide (pa.1 = pa.1 ∨ q.1 = pa.1) &&
        decide (listIndex pa.1 ((u ++ pa :: v).map Prod.fst)
          < listIndex q.1 ((u ++ pa :: v).map Prod.fst))).map
      fun q => ((pa.1, q.1), segLen2 pa.2 q.2)))
      = v.map fun q => ((pa.1, q.1), segLen2 pa.2 q.2) := by
    have hfil : ((u ++ pa :: v).filter fun q =>
        decide (pa.1 = pa.1 ∨ q.1 = pa.1) &&
          decide (listIndex pa.1 ((u ++ pa :: v).map Prod.fst)
            < listIndex q.1 ((u ++ pa :: v).map Prod.fst))) = v := by
      rw [List.filter_append, List.filter_cons]
      have h1 : (u.filter fun q => decide (pa.1 = pa.1 ∨ q.1 = pa.1) &&
          decide (listIndex pa.1 ((u ++ pa :: v).map Prod.fst)
            < listIndex q.1 ((u ++ pa :: v).map Prod.fst))) = [] := by
        refine List.filter_eq_nil_iff.mpr fun q hq hc => ?_
        simp only [Bool.and_eq_true, decide_eq_true_eq] at hc
        have := hc.2
        rw [posa] at this
        exact absurd (posu q hq) (by omega)
      have h2 : (v.filter fun q => decide (pa.1 = pa.1 ∨ q.1 = pa.1) &&
          decide (listIndex pa.1 ((u ++ pa :: v).map Prod.fst)
            < listIndex q.1 ((u ++ pa :: v).map Prod.fst))) = v := by
        refine List.filter_eq_self.mpr fun q hq => ?_
        simp only [Bool.and_eq_true, decide_eq_true_eq]
        exact ⟨Or.inl trivial, posa ▸ posv q hq⟩
      rw [h1, h2]
      rw [if_neg]
      · rfl
      · simp only [Bool.and_eq_true, decide_eq_true_eq]
        rintro ⟨-, hlt⟩
        exact lt_irrefl _ hlt
    rw [hfil]
  have hv : ∀ p ∈ v,
      ((((u ++ pa :: v).filter fun q =>
          decide (p.1 = pa.1 ∨ q.1 = pa.1) &&
            decide (listIndex p.1 ((u ++ pa :: v).map Prod.fst)
              < listIndex q.1 ((u ++ pa :: v).map Prod.fst))).map
        fun q => ((p.1, q.1), segLen2 p.2 q.2)))
      = [] := by
    intro p hp
    have hfil : ((u ++ pa :: v).filter fun q =>
        decide (p.1 = pa.1 ∨ q.1 = pa.1) &&
          decide (listIndex p.1 ((u ++ pa :: v).map Prod.fst)
            < listIndex q.1 ((u ++ pa :: v).map Prod.fst))) = [] := by
      rw [List.filter_append, List.filter_cons]
      have h1 : (u.filter fun q => decide (p.1 = pa.1 ∨ q.1 = pa.1) &&
          decide (listIndex p.1 ((u ++ pa :: v).map Prod.fst)
            < listIndex q.1 ((u ++ pa :: v).map Prod.fst))) = [] := by
        refine List.filter_eq_nil_iff.mpr fun q hq hc => ?_
        simp only [Bool.and_eq_true, decide_eq_true_eq] at hc
        rcases hc.1 with h | h
        · exact hvfst p hp h
        · exact hufst q hq h
      have h2 : (v.filter fun q => decide (p.1 = pa.1 ∨ q.1 = pa.1) &&
          decide (listIndex p.1 ((u ++ pa :: v).map Prod.fst)
            < listIndex q.1 ((u ++ pa :: v).map Prod.fst))) = [] := by
        refine List.filter_eq_nil_iff.mpr fun q hq hc => ?_
        simp only [Bool.and_eq_true, decide_eq_true_eq] at hc
        rcases hc.1 with h | h
        · exact hvfst p hp h
        · exact hvfst q hq h
      rw [h1, h2]
      rw [if_neg]
      · rfl
      · simp only [Bool.and_eq_true, decide_eq_true_eq]
        rintro ⟨-, hlt⟩
        rw [posa] at hlt
        exact absurd (posv p hp) (by omega)
    rw [hfil]
    rfl
  rw [flatMap_congr_mem hu, flatMap_singleton_eq_map, hpa_block,
    flatMap_eq_nil_of_forall hv, List.append_nil]

theorem pos_left {u v : List (Nat × Pt)} {pa : Nat × Pt}
    (hn : ((u ++ pa :: v).map Prod.fst).Nodup) {q : Nat × Pt} (hq : q ∈ u) :
    listIndex q.1 ((u ++ pa :: v).map Prod.fst) < u.length := by
  have hids : (u ++ pa :: v).map Prod.fst = u.map Prod.fst ++ pa.1 :: v.map Prod.fst := by
    simp
  rw [hids, listIndex_append_left _ (List.mem_map_of_mem _ hq)]
  have := listIndex_lt_length (List.mem_map_of_mem Prod.fst hq)
  simpa using this

theorem pos_mid {u v : List (Nat × Pt)} {pa : Nat × Pt}
    (hn : ((u ++ pa :: v).map Prod.fst).Nodup) :
    listIndex pa.1 ((u ++ pa :: v).map Prod.fst) = u.length := by
  have hn' : (u.map Prod.fst ++ pa.1 :: v.map Prod.fst).Nodup := by simpa using hn
  obtain ⟨-, -, hdisj⟩ := List.nodup_append.mp hn'
  have hpau : pa.1 ∉ u.map Prod.fst := fun hm => hdisj hm (List.mem_cons_self _ _)
  have hids : (u ++ pa :: v).map Prod.fst = u.map Prod.fst ++ pa.1 :: v.map Prod.fst := by
    simp
  rw [hids, listIndex_append_right _ hpau, listIndex_cons_self]
  simp

theorem pos_right {u v : List (Nat × Pt)} {pa : Nat × Pt}
    (hn : ((u ++ pa :: v).map Prod.fst).Nodup) {q : Nat × Pt} (hq : q ∈ v) :
    u.length < listIndex q.1 ((u ++ pa :: v).map Prod.fst) := by
  have hn' : (u.map Prod.fst ++ pa.1 :: v.map Prod.fst).Nodup := by simpa using hn
  obtain ⟨-, hnpav, hdisj⟩ := List.nodup_append.mp hn'
  have hpav : pa.1 ∉ v.map Prod.fst := (List.nodup_cons.mp hnpav).1
  have h1 : q.1 ∉ u.map Prod.fst := fun hm =>
    hdisj hm (List.mem_cons_of_mem _ (List.mem_map_of_mem _ hq))
  have h2 : pa.1 ≠ q.1 := fun he => hpav (he ▸ List.mem_map_of_mem _ hq)
  have hids : (u ++ pa :: v).map Prod.fst = u.map Prod.fst ++ pa.1 :: v.map Prod.fst := by
    simp
  rw [hids, listIndex_append_right _ h1, listIndex_cons_ne h2]
  have : (u.map Prod.fst).length = u.length := by simp
  omega

set_option maxHeartbeats 1000000 in
theorem fc_sorted_eq {pts : List (Nat × Pt)} (hn : (pts.map Prod.fst).Nodup)
    {pa : Nat × Pt} (hpa : pa ∈ pts) :
    fc_out_list (combsWithLen nearPoint pts pts) pa.1
      = ((pts.insertionSort fun q1 q2 => segLen2 pa.2 q1.2 ≤ segLen2 pa.2 q2.2).map
          Prod.fst).map (fun b => (pa.1, b)) := by
  unfold fc_out_list
  rw [fc_group_selfjoin hn hpa, bucketed_eq_insertionSort,
    ← List.map_insertionSort (fun q1 q2 : ℕ × Pt => segLen2 pa.2 q1.2 ≤ segLen2 pa.2 q2.2)
      (fun r1 r2 : Comb × ℚ => r1.2 ≤ r2.2)
      (fun q : ℕ × Pt => ((pa.1, q.1), segLen2 pa.2 q.2)) pts
      (fun q1 _ q2 _ => Iff.rfl),
    List.map_map, List.map_map]
  rfl

set_option maxHeartbeats 1000000 in
theorem other_sorted_eq {pts : List (Nat × Pt)} (hn : (pts.map Prod.fst).Nodup)
    {pa : Nat × Pt} (hpa : pa ∈ pts) :
    other_out_list (combsWithLen nearPoint pts pts) pa.1
      = ((pts.insertionSort fun q1 q2 => segLen2 pa.2 q1.2 ≤ segLen2 pa.2 q2.2).map
          Prod.fst).map (fun b => (b, pa.1)) := by
  unfold other_out_list
  rw [other_group_selfjoin hn hpa, bucketed_eq_insertionSort,
    ← List.map_insertionSort (fun q1 q2 : ℕ × Pt => segLen2 pa.2 q1.2 ≤ segLen2 pa.2 q2.2)
      (fun r1 r2 : Comb × ℚ => r1.2 ≤ r2.2)
      (fun q : ℕ × Pt => ((q.1, pa.1), segLen2 q.2 pa.2)) pts
      (fun q1 _ q2 _ => by
        show segLen2 pa.2 q1.2 ≤ segLen2 pa.2 q2.2 ↔ segLen2 q1.2 pa.2 ≤ segLen2 q2.2 pa.2
        rw [segLen2_comm pa.2 q1.2, segLen2_comm pa.2 q2.2]),
    List.map_map, List.map_map]
  rfl

/-- In the self-join with duplicate-free ids and pairwise-distinct point
locations, the surviving rows involving a fixed identifier, sorted by ascending
segment length, carry the side-appropriate index values `0, 1, 2, …` in
order. -/
theorem selfjoin_rank_range (pts : List (Nat × Pt)) (hn : (pts.map Prod.fst).Nodup)
    (hd : (pts.map Prod.snd).Nodup) {a : ℕ} (ha : a ∈ pts.map Prod.fst) :
    (((dl_points pts).filter fun r => r.1.1 = a ∨ r.1.2 = a).insertionSort
        (fun r1 r2 => combLen2 pts r1.1 ≤ combLen2 pts r2.1)).map
      (fun r => if r.1.1 = a then r.2.1 else r.2.2)
    = (List.range (pts.length - 1)).map Int.ofNat := by
  obtain ⟨pa, hpa, rfl⟩ := List.mem_map.mp ha
  obtain ⟨u, v, rfl⟩ := List.append_of_mem hpa
  haveI : IsTotal (ℕ × Pt) (fun q1 q2 : ℕ × Pt => segLen2 pa.2 q1.2 ≤ segLen2 pa.2 q2.2) :=
    ⟨fun _ _ => le_total _ _⟩
  haveI : IsTrans (ℕ × Pt) (fun q1 q2 : ℕ × Pt => segLen2 pa.2 q1.2 ≤ segLen2 pa.2 q2.2) :=
    ⟨fun _ _ _ h1 h2 => le_trans h1 h2⟩
  have hnodup_pts : (u ++ pa :: v).Nodup := hn.of_map
  have hn' : (u.map Prod.fst ++ pa.1 :: v.map Prod.fst).Nodup := by simpa using hn
  obtain ⟨-, hnpav, hdisj⟩ := List.nodup_append.mp hn'
  have hpau : pa.1 ∉ u.map Prod.fst := fun hm => hdisj hm (List.mem_cons_self _ _)
  have hpav : pa.1 ∉ v.map Prod.fst := (List.nodup_cons.mp hnpav).1
  have hufst : ∀ q ∈ u, ¬ (q.1 = pa.1) := fun q hq he =>
    hpau (he ▸ List.mem_map_of_mem Prod.fst hq)
  have hvfst : ∀ q ∈ v, ¬ (q.1 = pa.1) := fun q hq he =>
    hpav (he ▸ List.mem_map_of_mem Prod.fst hq)
  -- surviving rows involving `pa`, in row order
  have h1 : ((dl_points (u ++ pa :: v)).filter fun r => decide (r.1.1 = pa.1 ∨ r.1.2 = pa.1))
      = (u.map (fun q => ((q.1, pa.1), segLen2 q.2 pa.2))
          ++ v.map (fun q => ((pa.1, q.1), segLen2 pa.2 q.2))).map
        (fun r => (r.1,
          (listIndex r.1 (fc_out_list
            (combsWithLen nearPoint (u ++ pa :: v) (u ++ pa :: v)) r.1.1) : ℤ) - 1,
          (listIndex r.1 (other_out_list
            (combsWithLen nearPoint (u ++ pa :: v) (u ++ pa :: v)) r.1.2) : ℤ) - 1)) := by
    rw [dl_points_eq, List.filter_map, List.filter_filter, ← kept_involving_eq hn]
    exact congrArg _ (List.filter_congr fun r _ => rfl)
  -- express the surviving rows as one map over `u ++ v`
  have hW2 : u.map (fun q => ((q.1, pa.1), segLen2 q.2 pa.2))
      ++ v.map (fun q => ((pa.1, q.1), segLen2 pa.2 q.2))
      = (u ++ v).map (fun q : ℕ × Pt =>
          if listIndex q.1 ((u ++ pa :: v).map Prod.fst) < u.length
          then ((q.1, pa.1), segLen2 q.2 pa.2) else ((pa.1, q.1), segLen2 pa.2 q.2)) := by
    rw [List.map_append]
    congr 1
    · exact List.map_congr_left fun q hq => (if_pos (pos_left hn hq)).symm
    · refine List.map_congr_left fun q hq => (if_neg ?_).symm
      have := pos_right hn hq
      omega
  -- the sorted key list of the features, and its head
  have hSperm : List.Perm ((u ++ pa :: v).insertionSort
      (fun q1 q2 : ℕ × Pt => segLen2 pa.2 q1.2 ≤ segLen2 pa.2 q2.2)) (u ++ pa :: v) :=
    List.perm_insertionSort _ _
  have hSnodup : ((u ++ pa :: v).insertionSort
      (fun q1 q2 : ℕ × Pt => segLen2 pa.2 q1.2 ≤ segLen2 pa.2 q2.2)).Nodup :=
    hSperm.nodup_iff.mpr hnodup_pts
  have hSsorted := List.sorted_insertionSort
    (fun q1 q2 : ℕ × Pt => segLen2 pa.2 q1.2 ≤ segLen2 pa.2 q2.2) (u ++ pa :: v)
  cases hS : ((u ++ pa :: v).insertionSort
      (fun q1 q2 : ℕ × Pt => segLen2 pa.2 q1.2 ≤ segLen2 pa.2 q2.2)) with
  | nil =>
    exfalso
    have : pa ∈ ((u ++ pa :: v).insertionSort
        (fun q1 q2 : ℕ × Pt => segLen2 pa.2 q1.2 ≤ segLen2 pa.2 q2.2)) :=
      hSperm.mem_iff.mpr hpa
    rw [hS] at this
    cases this
  | cons s0 T =>
    have hs0 : s0 = pa := by
      by_contra hne
      have hpaS : pa ∈ s0 :: T := by
        rw [← hS]
        exact hSperm.mem_iff.mpr hpa
      have hpaT : pa ∈ T := by
        rcases List.mem_cons.mp hpaS with h1 | h2
        · exact absurd h1.symm hne
        · exact h2
      have hs0pts : s0 ∈ u ++ pa :: v := by
        refine hSperm.mem_iff.mp ?_
        rw [hS]
        exact List.mem_cons_self _ _
      have hrel : segLen2 pa.2 s0.2 ≤ segLen2 pa.2 pa.2 := by
        have := hS ▸ hSsorted
        exact List.rel_of_sorted_cons this pa hpaT
      have hz : segLen2 pa.2 s0.2 = 0 := by
        have h0 := segLen2_self pa.2
        have := segLen2_nonneg pa.2 s0.2
        rw [h0] at hrel
        linarith
      have hsnd : pa.2 = s0.2 := segLen2_eq_zero_iff.mp hz
      exact hne (List.inj_on_of_nodup_map hd hs0pts hpa hsnd.symm)
    have hs0' : pa = s0 := hs0.symm
    subst hs0'
    -- map the sort inside, then evaluate pointwise
    have hG : ∀ q ∈ u ++ v, combLen2 (u ++ pa :: v)
        ((if listIndex q.1 ((u ++ pa :: v).map Prod.fst) < u.length
          then ((q.1, pa.1), segLen2 q.2 pa.2)
          else ((pa.1, q.1), segLen2 pa.2 q.2)) : Comb × ℚ).1 = segLen2 pa.2 q.2 := by
      intro q hq
      have hqpts : q ∈ u ++ pa :: v := by
        rcases List.mem_append.mp hq with h1 | h2
        · exact List.mem_append_left _ h1
        · exact List.mem_append_right _ (List.mem_cons_of_mem _ h2)
      have hlq : (u ++ pa :: v).lookup q.1 = some q.2 := lookup_of_nodup hn hqpts
      have hlpa : (u ++ pa :: v).lookup pa.1 = some pa.2 := lookup_of_nodup hn hpa
      rcases List.mem_append.mp hq with h1 | h2
      · rw [if_pos (pos_left hn h1)]
        simp only [combLen2, hlq, hlpa, Option.getD_some]
        exact segLen2_comm q.2 pa.2
      · rw [if_neg (by have := pos_right hn h2; omega)]
        simp only [combLen2, hlq, hlpa, Option.getD_some]
    rw [h1, hW2, List.map_map,
      ← List.map_insertionSort
        (fun q1 q2 : ℕ × Pt => segLen2 pa.2 q1.2 ≤ segLen2 pa.2 q2.2)
        (fun r1 r2 : Comb × ℤ × ℤ =>
          combLen2 (u ++ pa :: v) r1.1 ≤ combLen2 (u ++ pa :: v) r2.1)
        _ (u ++ v)
        (fun q1 hq1 q2 hq2 => by
          show segLen2 pa.2 q1.2 ≤ segLen2 pa.2 q2.2 ↔
            combLen2 (u ++ pa :: v)
              ((if listIndex q1.1 ((u ++ pa :: v).map Prod.fst) < u.length
                then ((q1.1, pa.1), segLen2 q1.2 pa.2)
                else ((pa.1, q1.1), segLen2 pa.2 q1.2)) : Comb × ℚ).1 ≤
            combLen2 (u ++ pa :: v)
              ((if listIndex q2.1 ((u ++ pa :: v).map Prod.fst) < u.length
                then ((q2.1, pa.1), segLen2 q2.2 pa.2)
                else ((pa.1, q2.1), segLen2 pa.2 q2.2)) : Comb × ℚ).1
          rw [hG q1 hq1, hG q2 hq2])]
    -- replace the sorted feature list by `T`
    have huvsort : (u ++ v).insertionSort
        (fun q1 q2 : ℕ × Pt => segLen2 pa.2 q1.2 ≤ segLen2 pa.2 q2.2) = T := by
      have huvfil : u ++ v = (u ++ pa :: v).filter (fun q => decide ¬ (q.1 = pa.1)) := by
        rw [List.filter_append, List.filter_cons]
        rw [List.filter_eq_self.mpr fun q hq => by simpa using hufst q hq,
          List.filter_eq_self.mpr fun q hq => by simpa using hvfst q hq]
        rw [if_neg (by simp)]
      rw [huvfil, insertionSort_filter, hS, List.filter_cons, if_neg (by simp)]
      refine List.filter_eq_self.mpr fun q hq => ?_
      have hqpa : q ≠ pa := by
        intro he
        rw [hS] at hSnodup
        exact (List.nodup_cons.mp hSnodup).1 (he ▸ hq)
      have hqpts : q ∈ u ++ pa :: v := by
        refine hSperm.mem_iff.mp ?_
        rw [hS]
        exact List.mem_cons_of_mem _ hq
      simpa using fun he => hqpa (List.inj_on_of_nodup_map hn hqpts hpa he)
    rw [huvsort, List.map_map]
    -- pointwise evaluation of the mapped rank value on `T`
    have hTmem : ∀ q ∈ T, q ∈ u ++ pa :: v ∧ ¬ (q.1 = pa.1) := by
      intro q hq
      have hqpa : q ≠ pa := by
        intro he
        rw [hS] at hSnodup
        exact (List.nodup_cons.mp hSnodup).1 (he ▸ hq)
      have hqpts : q ∈ u ++ pa :: v := by
        refine hSperm.mem_iff.mp ?_
        rw [hS]
        exact List.mem_cons_of_mem _ hq
      exact ⟨hqpts, fun he => hqpa (List.inj_on_of_nodup_map hn hqpts hpa he)⟩
    have hSmapfst : ((u ++ pa :: v).insertionSort
        (fun q1 q2 : ℕ × Pt => segLen2 pa.2 q1.2 ≤ segLen2 pa.2 q2.2)).map Prod.fst
        = pa.1 :: T.map Prod.fst := by
      rw [hS]
      rfl
    have hval : ∀ q ∈ T,
        ((fun r : Comb × ℤ × ℤ => if r.1.1 = pa.1 then r.2.1 else r.2.2) ∘
          ((fun r : Comb × ℚ => (r.1,
            (listIndex r.1 (fc_out_list
              (combsWithLen nearPoint (u ++ pa :: v) (u ++ pa :: v)) r.1.1) : ℤ) - 1,
            (listIndex r.1 (other_out_list
              (combsWithLen nearPoint (u ++ pa :: v) (u ++ pa :: v)) r.1.2) : ℤ) - 1)) ∘
          (fun q : ℕ × Pt =>
            if listIndex q.1 ((u ++ pa :: v).map Prod.fst) < u.length
            then ((q.1, pa.1), segLen2 q.2 pa.2)
            else ((pa.1, q.1), segLen2 pa.2 q.2)))) q
        = (listIndex q.1 (T.map Prod.fst) : ℤ) := by
      intro q hq
      obtain ⟨hqpts, hq1⟩ := hTmem q hq
      simp only [Function.comp_apply]
      by_cases hcase : listIndex q.1 ((u ++ pa :: v).map Prod.fst) < u.length
      · rw [if_pos hcase]
        rw [if_neg hq1]
        rw [other_sorted_eq hn hpa, hSmapfst]
        have hinj : Function.Injective (fun b : ℕ => ((b, pa.1) : Comb)) := by
          intro b1 b2 he
          exact congrArg Prod.fst he
        rw [listIndex_map hinj q.1 (pa.1 :: T.map Prod.fst),
          listIndex_cons_ne (fun he => hq1 he.symm)]
        push_cast
        ring
      · rw [if_neg hcase]
        rw [if_pos rfl]
        rw [fc_sorted_eq hn hpa, hSmapfst]
        have hinj : Function.Injective (fun b : ℕ => ((pa.1, b) : Comb)) := by
          intro b1 b2 he
          exact congrArg Prod.snd he
        rw [listIndex_map hinj q.1 (pa.1 :: T.map Prod.fst),
          listIndex_cons_ne (fun he => hq1 he.symm)]
        push_cast
        ring
    rw [List.map_congr_left hval]
    -- the positions of the tail elements enumerate `0 … n - 2`
    have hTfst_nodup : (T.map Prod.fst).Nodup := by
      have : (((u ++ pa :: v).insertionSort
          (fun q1 q2 : ℕ × Pt => segLen2 pa.2 q1.2 ≤ segLen2 pa.2 q2.2)).map Prod.fst).Nodup :=
        (hSperm.map Prod.fst).nodup_iff.mpr hn
      rw [hSmapfst] at this
      exact (List.nodup_cons.mp this).2
    have hTlen : T.length = (u ++ pa :: v).length - 1 := by
      have := List.length_insertionSort
        (fun q1 q2 : ℕ × Pt => segLen2 pa.2 q1.2 ≤ segLen2 pa.2 q2.2) (u ++ pa :: v)
      rw [hS] at this
      simp only [List.length_cons, List.length_append] at this ⊢
      omega
    have hnat : T.map (fun q => listIndex q.1 (T.map Prod.fst)) = List.range T.length := by
      have := listIndex_self_map hTfst_nodup
      rw [List.map_map] at this
      rw [List.length_map] at this
      exact this
    have hfinal : T.map (fun q => (listIndex q.1 (T.map Prod.fst) : ℤ))
        = (List.range T.length).map Int.ofNat := by
      rw [← hnat, List.map_map]
      rfl
    rw [hfinal, hTlen]

theorem fc_out_list_eq_sorted (rows : List (Comb × ℚ)) (a : ℕ) :
    fc_out_list rows a
      = ((rows.filter fun w => w.1.1 = a).insertionSort fun w1 w2 => w1.2 ≤ w2.2).map
        Prod.fst := by
  unfold fc_out_list
  rw [bucketed_eq_insertionSort]

theorem other_out_list_eq_sorted (rows : List (Comb × ℚ)) (b : ℕ) :
    other_out_list rows b
      = ((rows.filter fun w => w.1.2 = b).insertionSort fun w1 w2 => w1.2 ≤ w2.2).map
        Prod.fst := by
  unfold other_out_list
  rw [bucketed_eq_insertionSort]

theorem dl_cross_eq {β : Type} (near : Pt → β → Pt) (aRows : List (Nat × Pt))
    (bRows : List (Nat × β)) :
    distance_lines near aRows bRows false = (combsWithLen near aRows bRows).map
      (fun r => (r.1,
        (listIndex r.1 (fc_out_list (combsWithLen near aRows bRows) r.1.1) : ℤ),
        (listIndex r.1 (other_out_list (combsWithLen near aRows bRows) r.1.2) : ℤ))) := by
  unfold distance_lines
  simp

/-- C1 (amended): on inputs meeting the preconditions (unique object ids), in
the cross-collection case every output row's `OID1_index` is the zero-based
position of the row among all rows sharing its `OID1`, those rows being
stably sorted by ascending segment length (`OID2_index` likewise per `OID2`);
in the self-join case both indices are that position decremented by one; and
— provided additionally that the feature points are pairwise distinct — the
surviving rows of each identifier (its `OID1` rows read through `OID1_index`,
its `OID2` rows through `OID2_index`), sorted by ascending length, carry
exactly the ranks `0, 1, 2, …` again. -/
theorem distance_lines_ranking {β : Type} (near : Pt → β → Pt) (aRows : List (Nat × Pt))
    (bRows : List (Nat × β)) (pts : List (Nat × Pt))
    (hn : (pts.map Prod.fst).Nodup) (hd : (pts.map Prod.snd).Nodup) :
    (∀ r ∈ distance_lines near aRows bRows false,
      r.2.1 = (listIndex r.1 ((((combsWithLen near aRows bRows).filter
          fun w => w.1.1 = r.1.1).insertionSort fun w1 w2 => w1.2 ≤ w2.2).map Prod.fst) : ℤ)
      ∧ r.2.2 = (listIndex r.1 ((((combsWithLen near aRows bRows).filter
          fun w => w.1.2 = r.1.2).insertionSort fun w1 w2 => w1.2 ≤ w2.2).map Prod.fst) : ℤ))
    ∧ (∀ r ∈ dl_points pts,
      r.2.1 = (listIndex r.1 ((((combsWithLen nearPoint pts pts).filter
          fun w => w.1.1 = r.1.1).insertionSort fun w1 w2 => w1.2 ≤ w2.2).map Prod.fst) : ℤ) - 1
      ∧ r.2.2 = (listIndex r.1 ((((combsWithLen nearPoint pts pts).filter
          fun w => w.1.2 = r.1.2).insertionSort fun w1 w2 => w1.2 ≤ w2.2).map Prod.fst) : ℤ) - 1)
    ∧ (∀ a ∈ pts.map Prod.fst,
      (((dl_points pts).filter fun r => r.1.1 = a ∨ r.1.2 = a).insertionSort
          (fun r1 r2 => combLen2 pts r1.1 ≤ combLen2 pts r2.1)).map
        (fun r => if r.1.1 = a then r.2.1 else r.2.2)
      = (List.range (pts.length - 1)).map Int.ofNat) := by
  refine ⟨?_, ?_, fun a ha => selfjoin_rank_range pts hn hd ha⟩
  · intro r hr
    rw [dl_cross_eq] at hr
    obtain ⟨w, hw, rfl⟩ := List.mem_map.mp hr
    constructor
    · rw [← fc_out_list_eq_sorted]
    · rw [← other_out_list_eq_sorted]
  · intro r hr
    rw [dl_points_eq] at hr
    obtain ⟨w, hw, rfl⟩ := List.mem_map.mp hr
    constructor
    · rw [← fc_out_list_eq_sorted]
    · rw [← other_out_list_eq_sorted]

/-- C1 counterexample: with two coincident point features the claim's
"(0,1,2,…) after removal" consequence fails.  The self-pair `(1, 1)` is not
the strictly shortest row of its group, so the single surviving row `(1, 2)`
receives `OID2_index = -1`, not the zero-based rank `0` the claim promises
for identifier `2`. -/
theorem distance_lines_coincident_counterexample :
    dl_points [(1, ((0 : ℚ), (0 : ℚ))), (2, ((0 : ℚ), (0 : ℚ)))]
      = [((1, 2), 0, -1)] ∧ ¬ (0 : ℤ) ≤ -1 := by
  constructor
  · with_unfolding_all decide
  · decide

/-- C1 witness: the amended ranking statement evaluated on two distinct
points. -/
theorem distance_lines_ranking_witness :
    (((dl_points [(1, ((0 : ℚ), (0 : ℚ))), (2, ((3 : ℚ), (0 : ℚ)))]).filter
        fun r => r.1.1 = 1 ∨ r.1.2 = 1).insertionSort
        (fun r1 r2 => combLen2 [(1, ((0 : ℚ), (0 : ℚ))), (2, ((3 : ℚ), (0 : ℚ)))] r1.1
          ≤ combLen2 [(1, ((0 : ℚ), (0 : ℚ))), (2, ((3 : ℚ), (0 : ℚ)))] r2.1)).map
      (fun r => if r.1.1 = 1 then r.2.1 else r.2.2)
    = (List.range ([(1, ((0 : ℚ), (0 : ℚ))), (2, ((3 : ℚ), (0 : ℚ)))].length - 1)).map
        Int.ofNat :=
  (distance_lines_ranking nearPoint [] ([] : List (Nat × Pt))
    [(1, ((0 : ℚ), (0 : ℚ))), (2, ((3 : ℚ), (0 : ℚ)))] (by decide)
    (by with_unfolding_all decide)).2.2 1 (by decide)

/-- C2 witness: the symmetry/dedup statement evaluated on two distinct
points. -/
theorem distance_lines_selfjoin_symmetry_dedup_witness :
    (combsWithLen nearPoint [(1, ((0 : ℚ), (0 : ℚ))), (2, ((3 : ℚ), (0 : ℚ)))]
        [(1, ((0 : ℚ), (0 : ℚ))), (2, ((3 : ℚ), (0 : ℚ)))]).length
      = [(1, ((0 : ℚ), (0 : ℚ))), (2, ((3 : ℚ), (0 : ℚ)))].length
        * [(1, ((0 : ℚ), (0 : ℚ))), (2, ((3 : ℚ), (0 : ℚ)))].length
    ∧ (((1 : ℕ), (2 : ℕ))
          ∈ (dl_points [(1, ((0 : ℚ), (0 : ℚ))), (2, ((3 : ℚ), (0 : ℚ)))]).map Prod.fst
        ↔ ¬ ((2 : ℕ), (1 : ℕ))
          ∈ (dl_points [(1, ((0 : ℚ), (0 : ℚ))), (2, ((3 : ℚ), (0 : ℚ)))]).map Prod.fst)
    ∧ ((1 : ℕ), (1 : ℕ))
        ∉ (dl_points [(1, ((0 : ℚ), (0 : ℚ))), (2, ((3 : ℚ), (0 : ℚ)))]).map Prod.fst := by
  have h := distance_lines_selfjoin_symmetry_dedup
    [(1, ((0 : ℚ), (0 : ℚ))), (2, ((3 : ℚ), (0 : ℚ)))] (by decide)
  exact ⟨h.1,
    h.2.2.1 (1, ((0 : ℚ), (0 : ℚ))) (by with_unfolding_all decide)
      (2, ((3 : ℚ), (0 : ℚ))) (by with_unfolding_all decide) (by decide),
    h.2.2.2 (1, ((0 : ℚ), (0 : ℚ))) (by with_unfolding_all decide)⟩

/-- Clearing the common denominator in a three-term linear combination. -/
theorem lin_solve_div (a b N1 N2 N3 D r : ℚ) (h : D ≠ 0)
    (hpoly : a * N1 + b * N2 + N3 = r * D) :
    a * (N1 / D) + b * (N2 / D) + N3 / D = r := by
  have key : a * (N1 / D) + b * (N2 / D) + N3 / D = (a * N1 + b * N2 + N3) / D := by
    ring
  rw [key, hpoly, mul_div_assoc, div_self h, mul_one]

set_option maxHeartbeats 1000000 in
/-- The Cramer center of lines 267-271 satisfies, together with the Cramer
value of the third unknown, the linear system `xi·X + yi·Y + K = (xi²+yi²)/2`
encoded by the matrices of `circle_from_three_points`. -/
theorem cramer_satisfies (x1 y1 x2 y2 x3 y3 : ℚ)
    (h : det_a (x1, y1) (x2, y2) (x3, y3) ≠ 0) :
    ∃ k : ℚ,
      x1 * circle_x (x1, y1) (x2, y2) (x3, y3)
          + y1 * circle_y (x1, y1) (x2, y2) (x3, y3) + k
        = (x1 * x1 + y1 * y1) / 2
      ∧ x2 * circle_x (x1, y1) (x2, y2) (x3, y3)
          + y2 * circle_y (x1, y1) (x2, y2) (x3, y3) + k
        = (x2 * x2 + y2 * y2) / 2
      ∧ x3 * circle_x (x1, y1) (x2, y2) (x3, y3)
          + y3 * circle_y (x1, y1) (x2, y2) (x3, y3) + k
        = (x3 * x3 + y3 * y3) / 2 := by
  refine ⟨det3 x1 y1 ((x1 * x1 + y1 * y1) / 2) x2 y2 ((x2 * x2 + y2 * y2) / 2)
      x3 y3 ((x3 * x3 + y3 * y3) / 2) / det_a (x1, y1) (x2, y2) (x3, y3),
    ?_, ?_, ?_⟩ <;>
  · unfold circle_x circle_y
    unfold det_a det3 at h ⊢
    dsimp only at h ⊢
    exact lin_solve_div _ _ _ _ _ _ _ h (by ring)

/-- C3: the claim fails as soon as a collinear triple is skipped.
`points_counter` is incremented only for successful triples (line 283), so
after the skipped collinear triple `(0,0),(1,1),(2,2)` the second triple
`(10,10),(14,10),(10,14)` is processed with `points_counter = 0` and its
radius is measured from `shape[0] = (0,0)` (line 279), not from its own
first point `(10,10)`: the recorded squared radius is `288` while the
distance from the center `(12,12)` to `(10,10)` has square `8`. -/
theorem circle_from_three_points_radius_bug :
    circle_from_three_points
        [((0 : ℚ), (0 : ℚ)), (1, 1), (2, 2), (10, 10), (14, 10), (10, 14)]
      = [((12, 12), 288)]
    ∧ segLen2 (10, 10) (12, 12) = 8 ∧ (288 : ℚ) ≠ 8 := by
  refine ⟨?_, ?_, ?_⟩ <;> with_unfolding_all decide

/-- C4: for every triple with nonzero determinant the Cramer center is
equidistant from the three points (stated on squared distances, which agree
with distances on nonnegatives); and the concrete 6-point scenario
`(0,0),(4,0),(0,4),(10,10),(14,10),(10,14)` yields exactly the two circles
with centers `(2,2)` and `(12,12)` and squared radius `8`, i.e. radius
`√8 = 2√2`. -/
theorem circle_from_three_points_equidistant :
    (∀ p1 p2 p3 : Pt, det_a p1 p2 p3 ≠ 0 →
      segLen2 p1 (circle_x p1 p2 p3, circle_y p1 p2 p3)
        = segLen2 p2 (circle_x p1 p2 p3, circle_y p1 p2 p3)
      ∧ segLen2 p2 (circle_x p1 p2 p3, circle_y p1 p2 p3)
        = segLen2 p3 (circle_x p1 p2 p3, circle_y p1 p2 p3))
    ∧ circle_from_three_points
        [((0 : ℚ), (0 : ℚ)), (4, 0), (0, 4), (10, 10), (14, 10), (10, 14)]
      = [((2, 2), 8), ((12, 12), 8)]
    ∧ Real.sqrt 8 = 2 * Real.sqrt 2 := by
  refine ⟨?_, ?_, ?_⟩
  · intro p1 p2 p3 h
    obtain ⟨x1, y1⟩ := p1
    obtain ⟨x2, y2⟩ := p2
    obtain ⟨x3, y3⟩ := p3
    obtain ⟨k, h1, h2, h3⟩ := cramer_satisfies x1 y1 x2 y2 x3 y3 h
    unfold segLen2
    dsimp only
    constructor
    · linear_combination (-2) * h1 + 2 * h2
    · linear_combination (-2) * h2 + 2 * h3
  · with_unfolding_all decide
  · rw [show (8 : ℝ) = 2 ^ 2 * 2 by norm_num,
      Real.sqrt_mul (by positivity), Real.sqrt_sq (by norm_num)]

/-- C4 witness: the equidistance statement instantiated at the non-collinear
triple `(0,0),(4,0),(0,4)` (determinant `16`). -/
theorem circle_from_three_points_equidistant_witness :
    segLen2 ((0 : ℚ), (0 : ℚ))
        (circle_x ((0 : ℚ), 0) (4, 0) (0, 4), circle_y ((0 : ℚ), 0) (4, 0) (0, 4))
      = segLen2 ((4 : ℚ), (0 : ℚ))
        (circle_x ((0 : ℚ), 0) (4, 0) (0, 4), circle_y ((0 : ℚ), 0) (4, 0) (0, 4)) :=
  (circle_from_three_points_equidistant.1 ((0 : ℚ), 0) (4, 0) (0, 4)
    (by with_unfolding_all decide)).1

/-- C5: the degeneracy test of line 684 reads `shape.pointCount`, where
`shape` is the enclosing piece-loop variable — the ORIGINAL singlepart piece
— not the currently shrunk `polygon`.  On the three-state engine whose
original piece has 3 points and whose first shrink has 2 points, the code
runs past the 2-vertex shrink and records the later centroid `(2,2)`, while
the claim's reading stops at the 2-vertex shrink and records `(1,1)` (both
with total `20`). -/
theorem inner_circle_pointcount_bug :
    converge_to_the_center countEngine 1 0 5 0 0
      = some (some (((2 : ℚ), (2 : ℚ)), 20))
    ∧ converge_spec countEngine 1 5 0 0 (0, 0) 0
      = some (some (((1 : ℚ), (1 : ℚ)), 20))
    ∧ (((2 : ℚ), (2 : ℚ)) : Pt) ≠ ((1 : ℚ), (1 : ℚ)) := by
  refine ⟨?_, ?_, ?_⟩ <;> with_unfolding_all decide

/-- C6 counterexample: when negative buffering raises, the `except` branch
at line 691 breaks out of the loop WITHOUT appending anything — the piece
contributes no centroid and no distance, whereas the claim's reading records
the current accumulated estimate `((0,0), 10)` for the piece. -/
theorem inner_circle_exception_counterexample :
    converge_to_the_center bufferFailEngine 1 0 5 0 0 = some none
    ∧ inner_circle_centroids bufferFailEngine 1 5 [0] = ([], [])
    ∧ converge_spec bufferFailEngine 1 5 0 0 (0, 0) 0
      = some (some (((0 : ℚ), (0 : ℚ)), 10)) := by
  refine ⟨?_, ?_, ?_⟩ <;> with_unfolding_all decide

/-- C6 (amended): an exception raised by a geometric primitive while
converging a piece does not fail the whole operation, but it records NOTHING
for that piece (rather than the accumulated estimate): the piece is skipped
and the output over the remaining pieces is unchanged. -/
theorem inner_circle_exception_skips (P : Type) (e : GeomEngine P)
    (accuracy : ℚ) (fuel : Nat) (l1 l2 : List P) (p : P)
    (h : converge_to_the_center e accuracy p fuel p 0 = some none) :
    inner_circle_centroids e accuracy fuel (l1 ++ p :: l2)
      = inner_circle_centroids e accuracy fuel (l1 ++ l2) := by
  have hstep : ∀ acc : List Pt × List ℚ,
      (match converge_to_the_center e accuracy p fuel p 0 with
        | some (some r) => (acc.1 ++ [r.1], acc.2 ++ [r.2])
        | _ => acc) = acc := by
    intro acc
    rw [h]
  unfold inner_circle_centroids
  rw [List.foldl_append, List.foldl_append, List.foldl_cons]
  congr 1
  exact hstep _

/-- C6 witness: the skip law evaluated on the buffer-collapsing engine with
a single piece. -/
theorem inner_circle_exception_skips_witness :
    inner_circle_centroids bufferFailEngine 1 5 ([] ++ 0 :: [])
      = inner_circle_centroids bufferFailEngine 1 5 ([] ++ []) :=
  inner_circle_exception_skips Nat bufferFailEngine 1 5 [] [] 0
    (by with_unfolding_all decide)

/-- C7: the secondary tie-break is broken for the y-primary policies.
Line 766's key `row[xy_index + 1 % 2]` parses as `row[xy_index + 1]`, so for
`top_left` (`xy_index = 1`) ties in `y` are ordered by `row[2]` — the object
id — not by `x`: on the rows `(5, 0, oid 1)` and `(1, 0, oid 2)` the code
numbers oid 1 first, while the claimed left-to-right tie-break numbers oid 2
(at `x = 1`) first.  For the x-primary policies (`xy_index = 0`) the buggy
index happens to equal the intended one and the two readings coincide. -/
theorem numerate_tiebreak_bug :
    numerate top_left.1 top_left.2.1 top_left.2.2 [(5, 0, 1), (1, 0, 2)]
      = [(1, 1), (2, 2)]
    ∧ numerate_spec top_left.1 top_left.2.1 top_left.2.2 [(5, 0, 1), (1, 0, 2)]
      = [(2, 1), (1, 2)]
    ∧ ([((1 : ℚ), 1), (2, 2)] : List (ℚ × Nat)) ≠ [(2, 1), (1, 2)]
    ∧ (∀ reverse_1 reverse_2 : Bool, ∀ l : List Row,
        numerate 0 reverse_1 reverse_2 l = numerate_spec 0 reverse_1 reverse_2 l) := by
  refine ⟨?_, ?_, ?_, fun _ _ _ => rfl⟩ <;> with_unfolding_all decide

/-- C8 counterexample: on a shape of length `1` with step `1/2` the code
samples `[1/2, 1, 1]` — the walk starts at the first increment, never at `0`,
and the clamped overshoot duplicates the endpoint — while the claimed
positions starting at `0` are `[0, 1/2, 1]`. -/
theorem points_along_feature_counterexample :
    points_along_shape 1 (1 / 2) = [1 / 2, 1, 1]
    ∧ (0 : ℚ) ∉ points_along_shape 1 (1 / 2)
    ∧ points_along_spec 1 (1 / 2) = [0, 1 / 2, 1] := by
  refine ⟨?_, ?_, ?_⟩ <;> with_unfolding_all decide

/-- C8 (amended): for positive length and step, the multipoint holds exactly
`floor(L/d) + 1` samples, the `i`-th (0-based) at arc length
`min(d * (i+1), L)`: the walk starts at `d`, not at `0` (`0` is never
sampled), and the total length is always the LAST sample — included even
when the final increment overshoots, in which case it is clamped down to
`L` (duplicating the endpoint when `L/d` is integral). -/
theorem points_along_feature_samples (L d : ℚ) (hd : 0 < d) (hL : 0 < L) :
    points_along_shape L d
      = (List.range (⌊L / d⌋.toNat + 1)).map (fun i : ℕ => min (d * ((i : ℚ) + 1)) L)
    ∧ (points_along_shape L d).length = ⌊L / d⌋.toNat + 1
    ∧ (points_along_shape L d).getLast? = some L
    ∧ (0 : ℚ) ∉ points_along_shape L d := by
  have hpos : ∀ i : ℕ, 0 < d * ((i : ℚ) + 1) := by
    intro i
    have : (0 : ℚ) < (i : ℚ) + 1 := by positivity
    exact mul_pos hd this
  have hclamp : points_along_shape L d
      = (List.range (⌊L / d⌋.toNat + 1)).map (fun i : ℕ => min (d * ((i : ℚ) + 1)) L) := by
    unfold points_along_shape positionAlongLine
    refine List.map_congr_left ?_
    intro i _
    rw [max_eq_left (le_of_lt (hpos i))]
  have hlast : L ≤ d * ((⌊L / d⌋.toNat : ℚ) + 1) := by
    have h0 : (0 : ℤ) ≤ ⌊L / d⌋ := by
      refine Int.floor_nonneg.mpr ?_
      positivity
    have hcast : ((⌊L / d⌋.toNat : ℤ) : ℚ) = ((⌊L / d⌋ : ℤ) : ℚ) := by
      rw [Int.toNat_of_nonneg h0]
    have hlt : L / d < (⌊L / d⌋.toNat : ℚ) + 1 := by
      have := Int.lt_floor_add_one (L / d)
      rw [Int.cast_natCast] at hcast
      rw [hcast]
      exact this
    have := (div_lt_iff hd).mp hlt
    calc L ≤ ((⌊L / d⌋.toNat : ℚ) + 1) * d := le_of_lt this
    _ = d * ((⌊L / d⌋.toNat : ℚ) + 1) := by ring
  refine ⟨hclamp, ?_, ?_, ?_⟩
  · unfold points_along_shape
    rw [List.length_map, List.length_range]
  · rw [hclamp, List.range_succ, List.map_append]
    simp only [List.map_cons, List.map_nil]
    rw [List.getLast?_concat]
    rw [min_eq_right hlast]
  · rw [hclamp]
    intro hmem
    obtain ⟨i, _, hi⟩ := List.mem_map.mp hmem
    have : (0 : ℚ) < min (d * ((i : ℚ) + 1)) L := lt_min (hpos i) hL
    rw [hi] at this
    exact lt_irrefl 0 this

/-- C8 witness: the amended statement evaluated at length `1`, step `1/2`:
the last sample is the total length. -/
theorem points_along_feature_samples_witness :
    (points_along_shape 1 (1 / 2)).getLast? = some 1 :=
  (points_along_feature_samples 1 (1 / 2) (by norm_num) (by norm_num)).2.2.1

/-- C9: rotating any point by angle θ and then by −θ about the same pivot
restores the point exactly over the reals, for every pivot — in particular
for each of the four pivot policies of `rotate_fc`, which only differ in the
pivot coordinates they pass. -/
theorem rotate_xy_round_trip (x y θ x_cnt y_cnt : ℝ) :
    rotate_xy (rotate_xy x y θ x_cnt y_cnt).1 (rotate_xy x y θ x_cnt y_cnt).2
        (-θ) x_cnt y_cnt = (x, y) := by
  unfold rotate_xy radians
  dsimp only
  have h2 : -1 * -θ * Real.pi / 180 = -(-1 * θ * Real.pi / 180) := by ring
  rw [h2, Real.cos_neg, Real.sin_neg, Prod.mk.injEq]
  constructor
  · linear_combination (x - x_cnt) * Real.sin_sq_add_cos_sq (-1 * θ * Real.pi / 180)
  · linear_combination (y - y_cnt) * Real.sin_sq_add_cos_sq (-1 * θ * Real.pi / 180)

theorem replaceFuel_congr (p r : List Char) (hp : p ≠ []) :
    ∀ f1 f2 s, s.length ≤ f1 → s.length ≤ f2 →
      replaceFuel p r f1 s = replaceFuel p r f2 s := by
  intro f1
  induction f1 with
  | zero =>
    intro f2 s h1 _
    have hs : s = [] := List.length_eq_zero.mp (Nat.le_zero.mp h1)
    subst hs
    cases f2 with
    | zero => rfl
    | succ f2 => rfl
  | succ f1 ih =>
    intro f2 s h1 h2
    cases s with
    | nil =>
      cases f2 with
      | zero => rfl
      | succ f2 => rfl
    | cons c s =>
      cases f2 with
      | zero => exact absurd h2 (by simp)
      | succ f2 =>
        show (if p.isPrefixOf (c :: s) then _ else _) = (if p.isPrefixOf (c :: s) then _ else _)
        by_cases hpre : p.isPrefixOf (c :: s)
        · rw [if_pos hpre, if_pos hpre]
          have hplen : 1 ≤ p.length := by
            cases p with
            | nil => exact absurd rfl hp
            | cons _ _ => simp
          have hd : ((c :: s).drop p.length).length ≤ f1 := by
            rw [List.length_drop]
            simp only [List.length_cons] at h1 ⊢
            omega
          have hd2 : ((c :: s).drop p.length).length ≤ f2 := by
            rw [List.length_drop]
            simp only [List.length_cons] at h2 ⊢
            omega
          rw [ih f2 _ hd hd2]
        · rw [if_neg hpre, if_neg hpre]
          have hl1 : s.length ≤ f1 := by
            simp only [List.length_cons] at h1
            omega
          have hl2 : s.length ≤ f2 := by
            simp only [List.length_cons] at h2
            omega
          rw [ih f2 s hl1 hl2]

theorem pyReplace_append_no_start (p r : List Char) (hp : p ≠ []) :
    ∀ x y, (∀ t, t ≠ [] → t <:+ x → ¬ p <+: (t ++ y)) →
      pyReplace (x ++ y) p r = x ++ pyReplace y p r := by
  intro x
  induction x with
  | nil => intro y _; simp
  | cons c x' ih =>
    intro y hno
    show replaceFuel p r ((c :: (x' ++ y)).length) (c :: (x' ++ y)) = _
    have hcond : ¬ p.isPrefixOf (c :: (x' ++ y)) = true := by
      intro hb
      exact hno (c :: x') (by simp) List.suffix_rfl
        (by rw [List.cons_append]; exact List.isPrefixOf_iff_prefix.mp hb)
    show (if p.isPrefixOf (c :: (x' ++ y)) then _ else _) = _
    rw [if_neg hcond]
    have : replaceFuel p r (x' ++ y).length (x' ++ y) = pyReplace (x' ++ y) p r := rfl
    rw [this, ih y (fun t ht hs => hno t ht (hs.trans (List.suffix_cons c x')))]
    rfl

theorem pyReplace_append_self (p r : List Char) (hp : p ≠ []) (y : List Char) :
    pyReplace (p ++ y) p r = r ++ pyReplace y p r := by
  obtain ⟨c, p', rfl⟩ := List.exists_cons_of_ne_nil hp
  show replaceFuel (c :: p') r (((c :: p') ++ y).length) ((c :: p') ++ y) = _
  have hlen : ((c :: p') ++ y).length = (p' ++ y).length + 1 := by simp
  rw [hlen]
  show (if (c :: p').isPrefixOf (c :: (p' ++ y)) then _ else _) = _
  rw [if_pos (List.isPrefixOf_iff_prefix.mpr (by
    rw [show c :: (p' ++ y) = (c :: p') ++ y from rfl]
    exact List.prefix_append _ _))]
  have hdrop : (c :: (p' ++ y)).drop (c :: p').length = y := by
    simp only [List.length_cons, List.drop_succ_cons]
    exact List.drop_left p' y
  simp only [List.append_eq]
  rw [hdrop]
  have hcong : replaceFuel (c :: p') r (p' ++ y).length y
      = replaceFuel (c :: p') r y.length y :=
    replaceFuel_congr (c :: p') r hp _ _ y (by simp) (le_refl _)
  rw [hcong]
  rfl

theorem not_infix_nil (p : List Char) (hp : p ≠ []) : ¬ p <:+: ([] : List Char) :=
  fun h => hp (List.infix_nil.mp h)

theorem not_infix_append_cons (p : List Char) (hp : p ≠ []) :
    ∀ (x : List Char) (c : Char) (y : List Char), c ∉ p →
      ¬ p <:+: x → ¬ p <:+: y → ¬ p <:+: (x ++ c :: y) := by
  intro x
  induction x with
  | nil =>
    intro c y hc _ hy h
    rw [List.nil_append] at h
    rcases List.infix_cons_iff.mp h with hpre | hinf
    · obtain ⟨hd, tl, rfl⟩ := List.exists_cons_of_ne_nil hp
      obtain ⟨rfl, -⟩ := List.cons_prefix_cons.mp hpre
      exact hc (List.mem_cons_self _ _)
    · exact hy hinf
  | cons a x' ih =>
    intro c y hc hx hy h
    rw [List.cons_append] at h
    rcases List.infix_cons_iff.mp h with hpre | hinf
    · by_cases hlen : p.length ≤ (a :: x').length
      · have heq := List.prefix_iff_eq_take.mp hpre
        rw [show a :: (x' ++ c :: y) = (a :: x') ++ (c :: y) from rfl,
          List.take_append_eq_append_take, Nat.sub_eq_zero_of_le hlen, List.take_zero,
          List.append_nil] at heq
        have hpx : p <+: a :: x' := by
          rw [heq]
          exact List.take_prefix _ _
        exact hx hpx.isInfix
      · push_neg at hlen
        have heq := List.prefix_iff_eq_take.mp hpre
        rw [show a :: (x' ++ c :: y) = (a :: x') ++ (c :: y) from rfl,
          List.take_append_eq_append_take] at heq
        have hpos : 0 < p.length - (a :: x').length := by
          simp only [List.length_cons] at hlen ⊢
          omega
        obtain ⟨k, hk⟩ : ∃ k, p.length - (a :: x').length = k + 1 :=
          ⟨p.length - (a :: x').length - 1, by omega⟩
        have hcp : c ∈ p := by
          rw [heq, hk, List.take_succ_cons]
          exact List.mem_append_right _ (List.mem_cons_self _ _)
        exact hc hcp
    · exact ih c y hc (fun hi => hx (List.infix_cons hi)) hy hinf

theorem not_infix_singleton (p : List Char) (hp : p ≠ []) (c : Char) (hc : c ∉ p) :
    ¬ p <:+: [c] := by
  have := not_infix_append_cons p hp [] c [] hc (not_infix_nil p hp) (not_infix_nil p hp)
  simpa using this

theorem tails_ok_of_getLast (p s : List Char) (c : Char)
    (hlast : s.getLast? = some c) (hc : c ∉ p) :
    ∀ t ∈ s.tails, t ≠ [] → ¬ t <+: p := by
  intro t ht hne hpre
  have hsuf : t <:+ s := (List.mem_tails t s).mp ht
  obtain ⟨u, rfl⟩ := hsuf
  cases htl : t.getLast? with
  | none => exact hne (List.getLast?_eq_none.mp htl)
  | some c2 =>
    rw [List.getLast?_append, htl, Option.or_some] at hlast
    have hc2 : c2 ∈ t := List.mem_of_mem_getLast? htl
    rw [Option.some.injEq] at hlast
    subst hlast
    exact hc (hpre.subset hc2)

theorem prefix_left_of_le (p t y : List Char) (h : p <+: t ++ y)
    (hl : p.length ≤ t.length) : p <+: t := by
  have heq := List.prefix_iff_eq_take.mp h
  rw [List.take_append_eq_append_take, Nat.sub_eq_zero_of_le hl, List.take_zero,
    List.append_nil] at heq
  rw [heq]
  exact List.take_prefix _ _

theorem left_prefix_of_le (p t y : List Char) (h : p <+: t ++ y)
    (hl : t.length ≤ p.length) : t <+: p := by
  have heq := List.prefix_iff_eq_take.mp h
  have : p.take t.length = t := by
    rw [heq, List.take_take, min_eq_left hl, List.take_left]
  rw [← this]
  exact List.take_prefix _ _

theorem pyReplace_flatten (p r : List Char) (hp : p ≠ []) :
    ∀ segs : List (List Char), (∀ s ∈ segs, SegOk p s) →
      pyReplace segs.flatten p r
        = (segs.map fun s => if s = p then r else s).flatten := by
  intro segs
  induction segs with
  | nil => intro _; rfl
  | cons s segs ih =>
    intro hall
    have hs := hall s (List.mem_cons_self _ _)
    have hrest : ∀ u ∈ segs, SegOk p u := fun u hu => hall u (List.mem_cons.mpr (Or.inr hu))
    rw [List.flatten_cons, List.map_cons, List.flatten_cons]
    rcases hs with hsp | ⟨hclean, htails⟩
    · rw [hsp, pyReplace_append_self p r hp, ih hrest, if_pos rfl]
    · have hne : s ≠ p := fun h => hclean (h ▸ List.infix_refl p)
      rw [pyReplace_append_no_start p r hp s segs.flatten ?hno, ih hrest, if_neg hne]
      case hno =>
        intro t ht hsf hpre
        by_cases hl : p.length ≤ t.length
        · exact hclean ((prefix_left_of_le p t _ hpre hl).isInfix.trans hsf.isInfix)
        · push_neg at hl
          exact htails t ((List.mem_tails t s).mpr hsf) ht
            (left_prefix_of_le p t _ hpre (le_of_lt hl))



theorem segok_attr (p : List Char) (hp : p ≠ [])
    (hq : '"' ∉ p) (hcolon : ':' ∉ p) (hcomma : ',' ∉ p)
    (n v : List Char) (hn : ¬ p <:+: n) (hv : ¬ p <:+: v) :
    SegOk p (quoteJ n ++ ':' :: (quoteJ v ++ [','])) := by
  right
  have hnil := not_infix_nil p hp
  constructor
  · have h1 : ¬ p <:+: ([','] : List Char) := not_infix_singleton p hp ',' hcomma
    have h2 : ¬ p <:+: (v ++ '"' :: [',']) := not_infix_append_cons p hp v '"' [','] hq hv h1
    have h3 : ¬ p <:+: ('"' :: (v ++ '"' :: [','])) := by
      have := not_infix_append_cons p hp [] '"' (v ++ '"' :: [',']) hq hnil h2
      simpa using this
    have h4 : ¬ p <:+: (':' :: '"' :: (v ++ '"' :: [','])) := by
      have := not_infix_append_cons p hp [] ':' ('"' :: (v ++ '"' :: [','])) hcolon hnil h3
      simpa using this
    have h5 : ¬ p <:+: (n ++ '"' :: ':' :: '"' :: (v ++ '"' :: [','])) :=
      not_infix_append_cons p hp n '"' (':' :: '"' :: (v ++ '"' :: [','])) hq hn h4
    have h6 : ¬ p <:+: ('"' :: (n ++ '"' :: ':' :: '"' :: (v ++ '"' :: [',']))) := by
      have := not_infix_append_cons p hp []
        '"' (n ++ '"' :: ':' :: '"' :: (v ++ '"' :: [','])) hq hnil h5
      simpa using this
    have heq : quoteJ n ++ ':' :: (quoteJ v ++ [','])
        = '"' :: (n ++ '"' :: ':' :: '"' :: (v ++ '"' :: [','])) := by
      simp [quoteJ]
    rw [heq]
    exact h6
  · have hlast : (quoteJ n ++ ':' :: (quoteJ v ++ [','])).getLast? = some ',' := by
      have heq2 : quoteJ n ++ ':' :: (quoteJ v ++ [','])
          = (quoteJ n ++ ':' :: quoteJ v) ++ [','] := by simp
      rw [heq2, List.getLast?_concat]
    exact tails_ok_of_getLast p _ ',' hlast hcomma

theorem segok_close (p : List Char) (hp : p ≠ [])
    (hq : '"' ∉ p) (hcolon : ':' ∉ p) (hcomma : ',' ∉ p)
    (hlb : '[' ∉ p) (hrb : ']' ∉ p)
    (coords : List Char) (hco : ¬ p <:+: coords) :
    SegOk p ('"' :: ':' :: '[' :: (coords ++ [']', ','])) := by
  right
  have hnil := not_infix_nil p hp
  constructor
  · have h1 : ¬ p <:+: ([','] : List Char) := not_infix_singleton p hp ',' hcomma
    have h2 : ¬ p <:+: (coords ++ ']' :: [',']) :=
      not_infix_append_cons p hp coords ']' [','] hrb hco h1
    have h3 : ¬ p <:+: ('[' :: (coords ++ ']' :: [','])) := by
      have := not_infix_append_cons p hp [] '[' (coords ++ ']' :: [',']) hlb hnil h2
      simpa using this
    have h4 : ¬ p <:+: (':' :: '[' :: (coords ++ ']' :: [','])) := by
      have := not_infix_append_cons p hp [] ':' ('[' :: (coords ++ ']' :: [','])) hcolon hnil h3
      simpa using this
    have h5 : ¬ p <:+: ('"' :: ':' :: '[' :: (coords ++ ']' :: [','])) := by
      have := not_infix_append_cons p hp [] '"' (':' :: '[' :: (coords ++ ']' :: [','])) hq hnil h4
      simpa using this
    have heq : ('"' :: ':' :: '[' :: (coords ++ [']', ',']))
        = '"' :: ':' :: '[' :: (coords ++ ']' :: [',']) := by simp
    rw [heq]
    exact h5
  · have hlast : ('"' :: ':' :: '[' :: (coords ++ [']', ','])).getLast? = some ',' := by
      have heq2 : ('"' :: ':' :: '[' :: (coords ++ [']', ',']))
          = ('"' :: ':' :: '[' :: (coords ++ [']'])) ++ [','] := by simp
      rw [heq2, List.getLast?_concat]
    exact tails_ok_of_getLast p _ ',' hlast hcomma

theorem segok_quote (p : List Char) (hp : p ≠ []) (hq : '"' ∉ p) :
    SegOk p ['"'] := by
  right
  exact ⟨not_infix_singleton p hp '"' hq,
    tails_ok_of_getLast p _ '"' rfl hq⟩

theorem ne_p_of_quote_head (p : List Char) (hq : '"' ∉ p) (x : List Char) :
    ¬ ('"' :: x = p) := fun h => hq (h ▸ List.mem_cons_self '"' x)

theorem map_featureSegs (p r : List Char) (hq : '"' ∉ p) (f : Feature) :
    (featureSegs f).map (fun s => if s = p then r else s)
      = featureSegs { attributes := f.attributes,
                      containerKey := if f.containerKey = p then r else f.containerKey,
                      coords := f.coords } := by
  unfold featureSegs
  rw [List.map_append]
  congr 1
  · rw [List.map_map]
    refine List.map_congr_left ?_
    intro a _
    show (if quoteJ a.1 ++ ':' :: (quoteJ a.2 ++ [',']) = p then r else _) = _
    rw [if_neg]
    intro h
    apply hq
    rw [← h]
    simp [quoteJ]
  · simp only [List.map_cons, List.map_nil]
    rw [if_neg (ne_p_of_quote_head p hq _), if_neg (ne_p_of_quote_head p hq _)]

theorem map_dumpsSegs (p r : List Char) (hq : '"' ∉ p) (fs : FeatureSet) :
    (dumpsSegs fs).map (fun s => if s = p then r else s)
      = dumpsSegs { geometryType := fs.geometryType,
                    spatialReference := fs.spatialReference,
                    features := fs.features.map
                      (fun f => { attributes := f.attributes,
                                  containerKey :=
                                    if f.containerKey = p then r else f.containerKey,
                                  coords := f.coords }) } := by
  unfold dumpsSegs
  simp only [List.map_cons]
  congr 1
  · rw [if_neg]
    intro h
    apply hq
    rw [← h]
    simp [quoteJ]
  congr 1
  · rw [if_neg]
    intro h
    apply hq
    rw [← h]
    simp [quoteJ]
  · rw [List.map_flatMap, List.flatMap_map]
    refine flatMap_congr_mem ?_
    intro f _
    exact map_featureSegs p r hq f

theorem segsOk_pass (p : List Char) (hp : p ≠ []) (hq : '"' ∉ p) (hcolon : ':' ∉ p)
    (hcomma : ',' ∉ p) (hlb : '[' ∉ p) (hrb : ']' ∉ p) (fs : FeatureSet)
    (hgt1 : ¬ p <:+: ("geometryType".data)) (hgt2 : ¬ p <:+: fs.geometryType)
    (hsr1 : ¬ p <:+: ("spatialReference".data)) (hsr2 : ¬ p <:+: fs.spatialReference)
    (hfeat : ∀ f ∈ fs.features, (∀ a ∈ f.attributes, ¬ p <:+: a.1 ∧ ¬ p <:+: a.2)
       ∧ ¬ p <:+: f.coords ∧ SegOk p f.containerKey) :
    ∀ s ∈ dumpsSegs fs, SegOk p s := by
  intro s hs
  unfold dumpsSegs at hs
  simp only [List.mem_cons] at hs
  rcases hs with rfl | rfl | hs
  · exact segok_attr p hp hq hcolon hcomma _ _ hgt1 hgt2
  · exact segok_attr p hp hq hcolon hcomma _ _ hsr1 hsr2
  · rw [List.mem_flatMap] at hs
    obtain ⟨f, hf, hsf⟩ := hs
    have hd := hfeat f hf
    unfold featureSegs at hsf
    rcases List.mem_append.mp hsf with hattr | hrest
    · obtain ⟨a, ha, rfl⟩ := List.mem_map.mp hattr
      exact segok_attr p hp hq hcolon hcomma a.1 a.2 (hd.1 a ha).1 (hd.1 a ha).2
    · simp only [List.mem_cons, List.mem_singleton, List.not_mem_nil, or_false] at hrest
      rcases hrest with rfl | rfl | rfl
      · exact segok_quote p hp hq
      · exact hd.2.2
      · exact segok_close p hp hq hcolon hcomma hlb hrb f.coords hd.2.1

/-- C10 (amended): `polyline_to_polygon` performs a GLOBAL text
substitution on the serialized representation, not a keyed relabeling.
Provided no attribute field name, attribute value, coordinate text or
spatial-reference text contains `paths` or `curvePaths` as a substring, the
output is exactly the serialization with the geometry type set to polygon
and each feature's vertex-container key renamed (`paths` to `rings`,
`curvePaths` to `curveRings`), everything else unchanged; without that
proviso, occurrences of the patterns inside attribute text are rewritten
too. -/
theorem polyline_to_polygon_frame (fs : FeatureSet)
    (hsr : CleanText fs.spatialReference)
    (hfeat : ∀ f ∈ fs.features,
      (∀ a ∈ f.attributes, CleanText a.1 ∧ CleanText a.2) ∧ CleanText f.coords
      ∧ (f.containerKey = pathsKey ∨ f.containerKey = curvePathsKey)) :
    polyline_to_polygon fs
      = dumps { geometryType := polygonType,
                spatialReference := fs.spatialReference,
                features := fs.features.map renameFeature } := by
  have hcp_ne : curvePathsKey ≠ [] := by decide
  have hpk_ne : pathsKey ≠ [] := by decide
  have hall1 : ∀ s ∈ dumpsSegs (setGeometryType fs polygonType), SegOk curvePathsKey s := by
    refine segsOk_pass curvePathsKey hcp_ne (by decide) (by decide) (by decide) (by decide)
      (by decide) _ (by decide) (show ¬ curvePathsKey <:+: polygonType by decide)
      (by decide) hsr.2 ?_
    intro f hf
    have hd := hfeat f hf
    refine ⟨fun a ha => ⟨(hd.1 a ha).1.2, (hd.1 a ha).2.2⟩, hd.2.1.2, ?_⟩
    rcases hd.2.2 with hk | hk
    · right
      rw [hk]
      exact ⟨by decide, by decide⟩
    · left
      rw [hk]
  have pass1 : pyReplace (dumps (setGeometryType fs polygonType)) curvePathsKey curveRingsKey
      = ((dumpsSegs (setGeometryType fs polygonType)).map
          fun s => if s = curvePathsKey then curveRingsKey else s).flatten :=
    pyReplace_flatten curvePathsKey curveRingsKey hcp_ne _ hall1
  unfold polyline_to_polygon
  rw [pass1, map_dumpsSegs curvePathsKey curveRingsKey (by decide)]
  have hall2 : ∀ s ∈ dumpsSegs
      { geometryType := (setGeometryType fs polygonType).geometryType,
        spatialReference := (setGeometryType fs polygonType).spatialReference,
        features := (setGeometryType fs polygonType).features.map
          (fun f => { attributes := f.attributes,
                      containerKey :=
                        if f.containerKey = curvePathsKey then curveRingsKey
                        else f.containerKey,
                      coords := f.coords }) }, SegOk pathsKey s := by
    refine segsOk_pass pathsKey hpk_ne (by decide) (by decide) (by decide) (by decide)
      (by decide) _ (by decide) (show ¬ pathsKey <:+: polygonType by decide)
      (by decide) hsr.1 ?_
    intro f hf
    obtain ⟨f0, hf0, rfl⟩ := List.mem_map.mp hf
    dsimp only
    have hd := hfeat f0 hf0
    refine ⟨fun a ha => ⟨(hd.1 a ha).1.1, (hd.1 a ha).2.1⟩, hd.2.1.1, ?_⟩
    rcases hd.2.2 with hk | hk
    · rw [hk, if_neg (show ¬ pathsKey = curvePathsKey by decide)]
      left
      rfl
    · rw [hk, if_pos rfl]
      right
      exact ⟨by decide, by decide⟩
  rw [pyReplace_flatten pathsKey ringsKey hpk_ne _ hall2,
    map_dumpsSegs pathsKey ringsKey (by decide)]
  unfold dumps
  congr 1
  congr 1
  congr 1
  show (fs.features.map (fun f =>
      ({ attributes := f.attributes,
         containerKey := if f.containerKey = curvePathsKey then curveRingsKey
                         else f.containerKey,
         coords := f.coords } : Feature))).map
    (fun f =>
      ({ attributes := f.attributes,
         containerKey := if f.containerKey = pathsKey then ringsKey
                         else f.containerKey,
         coords := f.coords } : Feature)) = fs.features.map renameFeature
  rw [List.map_map]
  refine List.map_congr_left ?_
  intro f hf
  have hkey : (if (if f.containerKey = curvePathsKey then curveRingsKey
        else f.containerKey) = pathsKey then ringsKey
      else (if f.containerKey = curvePathsKey then curveRingsKey
        else f.containerKey)) = renameKey f.containerKey := by
    rcases (hfeat f hf).2.2 with hk | hk <;> rw [hk] <;> decide
  show ({ attributes := f.attributes,
          containerKey := if (if f.containerKey = curvePathsKey then curveRingsKey
                              else f.containerKey) = pathsKey then ringsKey
                          else (if f.containerKey = curvePathsKey then curveRingsKey
                                else f.containerKey),
          coords := f.coords } : Feature) = renameFeature f
  rw [hkey]
  rfl

set_option maxRecDepth 100000 in
/-- C10 counterexample: the substitutions of line 806 are applied to the
WHOLE serialized text, so an attribute value containing the word `paths` is
corrupted: on `exampleFS` the value `two paths` of field `note` comes out as
`two rings`, contradicting the claim that every attribute value is preserved
unchanged. -/
theorem polyline_to_polygon_attr_counterexample :
    polyline_to_polygon exampleFS
      = ("\"geometryType\":\"esriGeometryPolygon\",\"spatialReference\":\"wkid 4326\",\"note\":\"two rings\",\"rings\":[1 2],".data)
    ∧ List.IsInfix ("two rings".data) (polyline_to_polygon exampleFS)
    ∧ ¬ List.IsInfix ("two paths".data) (polyline_to_polygon exampleFS) := by
  refine ⟨?_, ?_, ?_⟩ <;> decide

/-- C10 witness: the frame property evaluated on the clean one-feature
collection. -/
theorem polyline_to_polygon_frame_witness :
    polyline_to_polygon exampleCleanFS
      = dumps { geometryType := polygonType,
                spatialReference := exampleCleanFS.spatialReference,
                features := exampleCleanFS.features.map renameFeature } :=
  polyline_to_polygon_frame exampleCleanFS ⟨by decide, by decide⟩
    (List.forall_mem_singleton.mpr
      ⟨List.forall_mem_singleton.mpr ⟨⟨by decide, by decide⟩, ⟨by decide, by decide⟩⟩,
       ⟨by decide, by decide⟩, Or.inl rfl⟩)



end ArcGeo
